import Mathlib

/-!
Verification of `hmt_escrow/storage.py`: an encrypted, content-addressed
storage gateway.  `upload` serializes a JSON document with sorted keys,
derives a SHA-1 content identifier, encrypts the canonical bytes with ECIES
for a recipient public key, and persists the ciphertext either to an S3
object store (keyed by the content hash) or to IPFS (keyed by the
store-assigned key).  `download` fetches the ciphertext, decrypts it and
parses the JSON back.

The embedding below translates the source faithfully:
* `sha1Hex` is a complete implementation of SHA-1 (`hashlib.sha1(...).hexdigest()`).
* `PyVal`, `dumpV`, `loadsJson` model Python values together with
  `json.dumps(msg, sort_keys=True)` (default separators, `ensure_ascii`)
  and `json.loads`; numbers are restricted to integers.
* The ECIES layer (`p2p.ecies`, `eth_keys`) is an external library, so it is
  modelled from the spec with a symbolic, executable integrated-encryption
  scheme: per-call ephemeral randomness, Diffie-Hellman key agreement,
  keystream (CTR-style) symmetric encryption, and an authentication tag over
  the shared MAC data and the ciphertext.
* The two backends (boto3 / ipfshttpclient) are modelled from the spec as
  associative stores with explicit failure injection, and the orchestration
  in `upload` / `download` is translated line by line, including the
  `try/except` structure (notably the S3 upload path, which logs and
  swallows failures).
-/

/-! ## Hexadecimal digits -/

/-- Lowercase hexadecimal digit for `n` (only meaningful for `n < 16`;
models Python's hex formatting of digests and `\uXXXX` escapes). -/
def hexChar : Nat → Char
  | 0 => '0' | 1 => '1' | 2 => '2' | 3 => '3' | 4 => '4' | 5 => '5' | 6 => '6'
  | 7 => '7' | 8 => '8' | 9 => '9' | 10 => 'a' | 11 => 'b' | 12 => 'c' | 13 => 'd'
  | 14 => 'e' | _ => 'f'

/-- The lowercase hexadecimal alphabet. -/
def hexAlphabet : List Char :=
  ['0', '1', '2', '3', '4', '5', '6', '7', '8', '9'] ++ ['a', 'b', 'c', 'd', 'e', 'f']

theorem hexChar_mem_hexAlphabet (n : Nat) : hexChar n ∈ hexAlphabet := by
  rcases Nat.lt_or_ge n 15 with h | h
  · interval_cases n <;> decide
  · obtain ⟨m, rfl⟩ : ∃ m, n = m + 15 := ⟨n - 15, by omega⟩
    show 'f' ∈ hexAlphabet
    decide

/-! ## SHA-1 (`hashlib.sha1`) -/

/-- Truncation to a 32-bit word. -/
def w32 (n : Nat) : Nat := n % 4294967296

/-- Left rotation of a 32-bit word by `b` bits (exact for `n < 2 ^ 32`). -/
def rotl (b n : Nat) : Nat := n % 2 ^ (32 - b) * 2 ^ b + n / 2 ^ (32 - b)

/-- Big-endian 4-byte serialization of a 32-bit word. -/
def be4 (n : Nat) : List Nat :=
  [n / 2 ^ 24 % 256, n / 2 ^ 16 % 256, n / 2 ^ 8 % 256, n % 256]

/-- Big-endian 8-byte serialization of the 64-bit message length. -/
def be8 (n : Nat) : List Nat :=
  [n / 2 ^ 56 % 256, n / 2 ^ 48 % 256, n / 2 ^ 40 % 256, n / 2 ^ 32 % 256,
   n / 2 ^ 24 % 256, n / 2 ^ 16 % 256, n / 2 ^ 8 % 256, n % 256]

/-- SHA-1 padding: append `0x80`, zero bytes to 56 mod 64, then the bit
length as a big-endian 64-bit integer. -/
def sha1Pad (m : List Nat) : List Nat :=
  m ++ 128 :: List.replicate ((64 - (m.length + 9) % 64) % 64) 0 ++ be8 (8 * m.length)

/-- Split a byte list into 64-byte chunks (`fuel` bounds the recursion). -/
def chunksAux : Nat → List Nat → List (List Nat)
  | 0, _ => []
  | _, [] => []
  | fuel + 1, l => l.take 64 :: chunksAux fuel (l.drop 64)

def chunks64 (l : List Nat) : List (List Nat) := chunksAux l.length l

/-- Big-endian 32-bit words of a chunk. -/
def wordsOf : List Nat → List Nat
  | b0 :: b1 :: b2 :: b3 :: r => (((b0 * 256 + b1) * 256 + b2) * 256 + b3) :: wordsOf r
  | _ => []

/-- Message-schedule extension: append `k` further words, each
`rotl 1 (w[i-3] xor w[i-8] xor w[i-14] xor w[i-16])`. -/
def expandW (ws : List Nat) : Nat → List Nat
  | 0 => ws
  | k + 1 =>
      expandW
        (ws ++ [rotl 1 (Nat.xor
          (Nat.xor (ws.getD (ws.length - 3) 0) (ws.getD (ws.length - 8) 0))
          (Nat.xor (ws.getD (ws.length - 14) 0) (ws.getD (ws.length - 16) 0)))]) k

/-- Round function `f` of SHA-1. -/
def sha1F (i b c d : Nat) : Nat :=
  if i < 20 then Nat.lor (Nat.land b c) (Nat.land (Nat.xor b 4294967295) d)
  else if i < 40 then Nat.xor (Nat.xor b c) d
  else if i < 60 then Nat.lor (Nat.lor (Nat.land b c) (Nat.land b d)) (Nat.land c d)
  else Nat.xor (Nat.xor b c) d

/-- Round constants of SHA-1. -/
def sha1K (i : Nat) : Nat :=
  if i < 20 then 1518500249 else if i < 40 then 1859775393
  else if i < 60 then 2400959708 else 3395469782

/-- One SHA-1 round on state `(a, b, c, d, e)` with indexed word `(i, w)`. -/
def sha1Step (st : Nat × Nat × Nat × Nat × Nat) (iw : Nat × Nat) :
    Nat × Nat × Nat × Nat × Nat :=
  match st, iw with
  | (a, b, c, d, e), (i, w) =>
      (w32 (rotl 5 a + sha1F i b c d + e + sha1K i + w), a, rotl 30 b, c, d)

/-- Process one 64-byte chunk. -/
def sha1Chunk (h : Nat × Nat × Nat × Nat × Nat) (chunk : List Nat) :
    Nat × Nat × Nat × Nat × Nat :=
  match h with
  | (h0, h1, h2, h3, h4) =>
      match ((List.range 80).zip (expandW (wordsOf chunk) 64)).foldl sha1Step
          (h0, h1, h2, h3, h4) with
      | (a, b, c, d, e) =>
          (w32 (h0 + a), w32 (h1 + b), w32 (h2 + c), w32 (h3 + d), w32 (h4 + e))

/-- SHA-1 digest (20 bytes) of a byte string. -/
def sha1Bytes (m : List Nat) : List Nat :=
  match (chunks64 (sha1Pad m)).foldl sha1Chunk
      (1732584193, 4023233417, 2562383102, 271733878, 3285377520) with
  | (h0, h1, h2, h3, h4) => be4 h0 ++ be4 h1 ++ be4 h2 ++ be4 h3 ++ be4 h4

/-- Lowercase hexadecimal rendering of a byte string. -/
def toHexChars : List Nat → List Char
  | [] => []
  | b :: r => hexChar (b / 16 % 16) :: hexChar (b % 16) :: toHexChars r

/-- `hashlib.sha1(m).hexdigest()` as a list of characters. -/
def sha1Hex (m : List Nat) : List Char := toHexChars (sha1Bytes m)

/-- UTF-8 bytes of an ASCII string (`str.encode('utf-8')`; all strings this
development feeds to it are ASCII because `json.dumps` escapes non-ASCII). -/
def strBytes (s : List Char) : List Nat := s.map Char.toNat

theorem sha1Bytes_length (m : List Nat) : (sha1Bytes m).length = 20 := by
  unfold sha1Bytes
  rcases (chunks64 (sha1Pad m)).foldl sha1Chunk
      (1732584193, 4023233417, 2562383102, 271733878, 3285377520) with
    ⟨h0, h1, h2, h3, h4⟩
  simp [be4]

theorem toHexChars_length (bs : List Nat) : (toHexChars bs).length = 2 * bs.length := by
  induction bs with
  | nil => rfl
  | cons b r ih => simp [toHexChars, ih]; omega

theorem sha1Hex_length (m : List Nat) : (sha1Hex m).length = 40 := by
  unfold sha1Hex
  rw [toHexChars_length, sha1Bytes_length]

theorem toHexChars_mem (bs : List Nat) : ∀ c ∈ toHexChars bs, c ∈ hexAlphabet := by
  induction bs with
  | nil => simp [toHexChars]
  | cons b r ih =>
      intro c hc
      rcases List.mem_cons.mp hc with h | hc2
      · rw [h]; exact hexChar_mem_hexAlphabet _
      · rcases List.mem_cons.mp hc2 with h | h
        · rw [h]; exact hexChar_mem_hexAlphabet _
        · exact ih c h

theorem sha1Hex_mem (m : List Nat) : ∀ c ∈ sha1Hex m, c ∈ hexAlphabet :=
  toHexChars_mem _

set_option maxRecDepth 100000 in
set_option maxHeartbeats 1000000 in
/-- Sanity vector: `sha1('abc') = a9993e364706816aba3e25717850c26c9cd0d89d`. -/
theorem sha1_vector_abc :
    sha1Hex (strBytes "abc".toList) = "a9993e364706816aba3e25717850c26c9cd0d89d".toList := by
  rfl

set_option maxRecDepth 100000 in
set_option maxHeartbeats 1000000 in
/-- Sanity vector: `sha1('') = da39a3ee5e6b4b0d3255bfef95601890afd80709`. -/
theorem sha1_vector_empty :
    sha1Hex [] = "da39a3ee5e6b4b0d3255bfef95601890afd80709".toList := by
  rfl

/-! ## Python values and `json.dumps(msg, sort_keys=True)` -/

/-- A Python value as handled by `json.dumps` / `json.loads`.  Numbers are
restricted to integers; `other` stands for any value outside the
JSON-compatible type set (serialization fails on it). -/
inductive PyVal where
  | null : PyVal
  | pbool (b : Bool) : PyVal
  | pint (n : Int) : PyVal
  | pstr (s : List Char) : PyVal
  | plist (xs : List PyVal) : PyVal
  | pdict (kvs : List (List Char × PyVal)) : PyVal
  | other : PyVal

/-- Python string comparison `a <= b` (lexicographic on code points),
used by `sort_keys=True`. -/
def keyLe : List Char → List Char → Bool
  | [], _ => true
  | _ :: _, [] => false
  | a :: as, b :: bs =>
      if a.toNat < b.toNat then true
      else if b.toNat < a.toNat then false
      else keyLe as bs

/-- Stable insertion into a key-sorted association list. -/
def insPair {α : Type} (p : List Char × α) :
    List (List Char × α) → List (List Char × α)
  | [] => [p]
  | q :: r => if keyLe p.1 q.1 then p :: q :: r else q :: insPair p r

/-- Stable insertion sort by key: the order `sorted(d.items())` visits the
entries of a Python dict under `sort_keys=True`. -/
def sortPairs {α : Type} (l : List (List Char × α)) : List (List Char × α) :=
  l.foldr insPair []

/-- Little-endian decimal digits of `n` (`fuel`-bounded so that the kernel
can evaluate it). -/
def natDigitsAux : Nat → Nat → List Nat
  | 0, _ => []
  | _, 0 => []
  | fuel + 1, n => n % 10 :: natDigitsAux fuel (n / 10)

def natDigits (n : Nat) : List Nat := natDigitsAux n n

/-- Decimal representation of a natural number (`repr` in Python). -/
def natRepr (n : Nat) : List Char :=
  if n = 0 then ['0'] else (natDigits n).reverse.map hexChar

/-- Decimal representation of a Python int. -/
def intRepr : Int → List Char
  | .ofNat n => natRepr n
  | .negSucc m => '-' :: natRepr (m + 1)

/-- Four lowercase hex digits, as in a `\uXXXX` escape. -/
def hex4 (n : Nat) : List Char :=
  [hexChar (n / 4096 % 16), hexChar (n / 256 % 16), hexChar (n / 16 % 16),
   hexChar (n % 16)]

/-- `json.dumps` escaping of one character with `ensure_ascii=True`:
`"` and `\` and the named control escapes, `\uXXXX` for other control and
non-ASCII characters, surrogate pairs above the BMP. -/
def encodeChar (c : Char) : List Char :=
  if c = '"' then ['\\', '"']
  else if c = '\\' then ['\\', '\\']
  else if c.toNat = 8 then ['\\', 'b']
  else if c.toNat = 9 then ['\\', 't']
  else if c.toNat = 10 then ['\\', 'n']
  else if c.toNat = 12 then ['\\', 'f']
  else if c.toNat = 13 then ['\\', 'r']
  else if c.toNat < 32 then '\\' :: 'u' :: hex4 c.toNat
  else if c.toNat ≤ 126 then [c]
  else if c.toNat < 65536 then '\\' :: 'u' :: hex4 c.toNat
  else
    '\\' :: 'u' :: hex4 (55296 + (c.toNat - 65536) / 1024) ++
      ('\\' :: 'u' :: hex4 (56320 + (c.toNat - 65536) % 1024))

/-- A JSON string literal for `s` (quotes plus escaped body). -/
def encodeStr (s : List Char) : List Char :=
  '"' :: ((s.map encodeChar).flatten ++ ['"'])

/-- Join rendered fragments with the default `', '` separator. -/
def joinComma : List (List Char) → List Char
  | [] => []
  | [x] => x
  | x :: y :: r => x ++ ',' :: ' ' :: joinComma (y :: r)

/-- One rendered `"key": value` member (default `': '` separator). -/
def itemText (p : List Char × List Char) : List Char :=
  encodeStr p.1 ++ ':' :: ' ' :: p.2

mutual

/-- `json.dumps(v, sort_keys=True)` (default separators, `ensure_ascii`). -/
def dumpV : PyVal → List Char
  | .null => ['n', 'u', 'l', 'l']
  | .pbool true => ['t', 'r', 'u', 'e']
  | .pbool false => ['f', 'a', 'l', 's', 'e']
  | .pint n => intRepr n
  | .pstr s => encodeStr s
  | .plist xs => '[' :: (joinComma (dumpL xs) ++ [']'])
  | .pdict kvs =>
      '\x7b' :: (joinComma ((sortPairs (dumpKV kvs)).map itemText) ++ ['\x7d'])
  | .other => []

def dumpL : List PyVal → List (List Char)
  | [] => []
  | x :: xs => dumpV x :: dumpL xs

def dumpKV : List (List Char × PyVal) → List (List Char × List Char)
  | [] => []
  | (k, v) :: r => (k, dumpV v) :: dumpKV r

end

mutual

/-- Canonical form of a Python value: every dict sorted by key, recursively.
Two duplicate-free dicts are equal as Python dicts (`==`) iff their
canonical forms are equal. -/
def canonV : PyVal → PyVal
  | .plist xs => .plist (canonL xs)
  | .pdict kvs => .pdict (sortPairs (canonKV kvs))
  | v => v

def canonL : List PyVal → List PyVal
  | [] => []
  | x :: xs => canonV x :: canonL xs

def canonKV : List (List Char × PyVal) → List (List Char × PyVal)
  | [] => []
  | (k, v) :: r => (k, canonV v) :: canonKV r

end

mutual

/-- Whether `json.dumps` succeeds on `v` (no value outside the
JSON-compatible type set anywhere inside). -/
def serializable : PyVal → Bool
  | .other => false
  | .plist xs => serializableL xs
  | .pdict kvs => serializableKV kvs
  | _ => true

def serializableL : List PyVal → Bool
  | [] => true
  | x :: xs => serializable x && serializableL xs

def serializableKV : List (List Char × PyVal) → Bool
  | [] => true
  | (_, v) :: r => serializable v && serializableKV r

end

/-- The content identifier of a document: the SHA-1 hex digest of the UTF-8
encoding of its sorted-keys JSON serialization (line 155 of the source). -/
def contentId (v : PyVal) : List Char := sha1Hex (strBytes (dumpV v))

/-- Sanity: `json.dumps({"task": "label", "reward": 5}, sort_keys=True)`
is `{"reward": 5, "task": "label"}` (example of spec section 8). -/
theorem dumps_example :
    dumpV (.pdict [("task".toList, .pstr "label".toList),
                   ("reward".toList, .pint 5)]) =
      "\x7b\"reward\": 5, \"task\": \"label\"\x7d".toList := by
  rfl

set_option maxRecDepth 100000 in
set_option maxHeartbeats 1000000 in
/-- Sanity: the content identifier of the spec section 8 example document,
cross-checked against `hashlib.sha1`. -/
theorem contentId_example :
    contentId (.pdict [("task".toList, .pstr "label".toList),
                       ("reward".toList, .pint 5)]) =
      "d5755b503101c0f4cf46c38420ce93d8d1f4fce0".toList := by
  rfl

/-! ## `json.loads` -/

/-- JSON whitespace skipping (space, tab, newline, carriage return). -/
def skipWs : List Char → List Char
  | [] => []
  | c :: r =>
      if c.toNat = 32 ∨ c.toNat = 9 ∨ c.toNat = 10 ∨ c.toNat = 13 then skipWs r
      else c :: r

/-- Value of one hexadecimal digit character (either case). -/
def hexVal (c : Char) : Option Nat :=
  if 48 ≤ c.toNat ∧ c.toNat ≤ 57 then some (c.toNat - 48)
  else if 97 ≤ c.toNat ∧ c.toNat ≤ 102 then some (c.toNat - 87)
  else if 65 ≤ c.toNat ∧ c.toNat ≤ 70 then some (c.toNat - 55)
  else none

/-- Build a character from a code point, failing on values that are not
Unicode scalar values (lone surrogates). -/
def mkChar (n : Nat) : Option Char :=
  if n.isValidChar then some (Char.ofNat n) else none

/-- Prepend a decoded character to the result of parsing the rest of a
string literal. -/
def consA (c : Char) : Option (List Char × List Char) → Option (List Char × List Char)
  | some (s, r) => some (c :: s, r)
  | none => none

/-- Combined value of four hexadecimal digit characters. -/
def hex4Val (h1 h2 h3 h4 : Char) : Option Nat :=
  match hexVal h1, hexVal h2, hexVal h3, hexVal h4 with
  | some d1, some d2, some d3, some d4 => some (((d1 * 16 + d2) * 16 + d3) * 16 + d4)
  | _, _, _, _ => none

/-- Prepend a decoded character (if the code point was valid) to the result
of parsing the rest of the string literal. -/
def consOpt : Option Char → Option (List Char × List Char) → Option (List Char × List Char)
  | some c, o => consA c o
  | none, _ => none

/-- Scanner state for a JSON string literal: scanning the body, after a
backslash, expecting `k` more hex digits of a `\uXXXX` escape with
accumulator `acc`, expecting the `\` then `u` introducing a low surrogate
after a high surrogate `n`, or expecting `k` more hex digits of the low
surrogate. -/
inductive SMode where
  | top : SMode
  | esc : SMode
  | uhex (k : Nat) (acc : Nat) : SMode
  | pairSlash (n : Nat) : SMode
  | pairU (n : Nat) : SMode
  | lohex (k : Nat) (acc : Nat) (n : Nat) : SMode

/-- Parse the body of a JSON string literal after the opening quote,
decoding escapes (including surrogate pairs), up to the closing quote,
mirroring Python's `py_scanstring`; one character is consumed per step. -/
def pStrM : SMode → List Char → Option (List Char × List Char)
  | _, [] => none
  | .top, c :: r =>
      if c = '"' then some ([], r)
      else if c = '\\' then pStrM .esc r
      else if c.toNat < 32 then none
      else consA c (pStrM .top r)
  | .esc, e :: r =>
      if e = '"' then consA '"' (pStrM .top r)
      else if e = '\\' then consA '\\' (pStrM .top r)
      else if e = '/' then consA '/' (pStrM .top r)
      else if e = 'b' then consA '\x08' (pStrM .top r)
      else if e = 'f' then consA '\x0c' (pStrM .top r)
      else if e = 'n' then consA '\x0a' (pStrM .top r)
      else if e = 'r' then consA '\x0d' (pStrM .top r)
      else if e = 't' then consA '\x09' (pStrM .top r)
      else if e = 'u' then pStrM (.uhex 4 0) r
      else none
  | .uhex k acc, g :: r =>
      match hexVal g with
      | none => none
      | some d =>
          if k ≤ 1 then
            if 55296 ≤ acc * 16 + d ∧ acc * 16 + d ≤ 56319 then
              pStrM (.pairSlash (acc * 16 + d)) r
            else consOpt (mkChar (acc * 16 + d)) (pStrM .top r)
          else pStrM (.uhex (k - 1) (acc * 16 + d)) r
  | .pairSlash n, b :: r => if b = '\\' then pStrM (.pairU n) r else none
  | .pairU n, u :: r => if u = 'u' then pStrM (.lohex 4 0 n) r else none
  | .lohex k acc n, g :: r =>
      match hexVal g with
      | none => none
      | some d =>
          if k ≤ 1 then
            if 56320 ≤ acc * 16 + d ∧ acc * 16 + d ≤ 57343 then
              consOpt (mkChar (65536 + (n - 55296) * 1024 + (acc * 16 + d - 56320)))
                (pStrM .top r)
            else none
          else pStrM (.lohex (k - 1) (acc * 16 + d) n) r

/-- The string-body parser proper. -/
def pStr (s : List Char) : Option (List Char × List Char) := pStrM .top s

/-- Take a maximal run of decimal digits, as digit values. -/
def takeDigits : List Char → List Nat × List Char
  | [] => ([], [])
  | c :: r =>
      if 48 ≤ c.toNat ∧ c.toNat ≤ 57 then
        match takeDigits r with
        | (ds, rest) => ((c.toNat - 48) :: ds, rest)
      else ([], c :: r)

/-- Numeric value of a most-significant-first digit list. -/
def digitsVal (ds : List Nat) : Nat := ds.foldl (fun a d => a * 10 + d) 0

/-- Reject a number that continues as a float (`.`, `e`, `E`); floats are
outside this model. -/
def floatCheck (n : Nat) (rest : List Char) : Option (Nat × List Char) :=
  match rest with
  | [] => some (n, [])
  | c :: _ => if c = '.' ∨ c = 'e' ∨ c = 'E' then none else some (n, rest)

/-- Parse an unsigned JSON integer (`0|[1-9][0-9]*`). -/
def pNumNat : List Char → Option (Nat × List Char)
  | [] => none
  | c :: r =>
      if c = '0' then
        match r with
        | [] => some (0, [])
        | d :: _ =>
            if 48 ≤ d.toNat ∧ d.toNat ≤ 57 then none else floatCheck 0 r
      else if 49 ≤ c.toNat ∧ c.toNat ≤ 57 then
        match takeDigits (c :: r) with
        | (ds, rest) => floatCheck (digitsVal ds) rest
      else none

/-- Parse a JSON integer with optional sign. -/
def pNum : List Char → Option (PyVal × List Char)
  | [] => none
  | c :: r =>
      if c = '-' then
        match pNumNat r with
        | some (n, rest) => some (.pint (-(n : Int)), rest)
        | none => none
      else
        match pNumNat (c :: r) with
        | some (n, rest) => some (.pint (n : Int), rest)
        | none => none

mutual

/-- Parse one JSON value (`fuel` bounds recursion depth; `loadsJson` supplies
enough fuel for any input it accepts). -/
def pVal : Nat → List Char → Option (PyVal × List Char)
  | 0, _ => none
  | fuel + 1, s =>
    match s with
    | 'n' :: 'u' :: 'l' :: 'l' :: r => some (.null, r)
    | 't' :: 'r' :: 'u' :: 'e' :: r => some (.pbool true, r)
    | 'f' :: 'a' :: 'l' :: 's' :: 'e' :: r => some (.pbool false, r)
    | '"' :: r =>
        match pStr r with
        | some (str, rest) => some (.pstr str, rest)
        | none => none
    | '[' :: r =>
        match skipWs r with
        | ']' :: r2 => some (.plist [], r2)
        | r1 =>
            match pElems fuel r1 with
            | some (vs, rest) => some (.plist vs, rest)
            | none => none
    | '\x7b' :: r =>
        match skipWs r with
        | '\x7d' :: r2 => some (.pdict [], r2)
        | r1 =>
            match pMembers fuel r1 with
            | some (kvs, rest) => some (.pdict kvs, rest)
            | none => none
    | s => pNum s

/-- Parse the elements of a non-empty JSON array up to `]`. -/
def pElems : Nat → List Char → Option (List PyVal × List Char)
  | 0, _ => none
  | fuel + 1, s =>
    match pVal fuel s with
    | none => none
    | some (v, r) =>
      match skipWs r with
      | ',' :: r2 =>
          match pElems fuel (skipWs r2) with
          | some (vs, r3) => some (v :: vs, r3)
          | none => none
      | ']' :: r2 => some ([v], r2)
      | _ => none

/-- Parse the members of a non-empty JSON object up to the closing brace. -/
def pMembers : Nat → List Char → Option (List (List Char × PyVal) × List Char)
  | 0, _ => none
  | fuel + 1, s =>
    match s with
    | '"' :: r =>
      match pStr r with
      | none => none
      | some (k, r1) =>
        match skipWs r1 with
        | ':' :: r2 =>
          match pVal fuel (skipWs r2) with
          | none => none
          | some (v, r3) =>
            match skipWs r3 with
            | ',' :: r4 =>
                match pMembers fuel (skipWs r4) with
                | some (kvs, r5) => some ((k, v) :: kvs, r5)
                | none => none
            | '\x7d' :: r4 => some ([(k, v)], r4)
            | _ => none
        | _ => none
    | _ => none

end

/-- `json.loads`: parse a full document, requiring only whitespace after the
value. -/
def loadsJson (s : List Char) : Option PyVal :=
  match pVal (s.length + 1) (skipWs s) with
  | some (v, r) => if skipWs r = [] then some v else none
  | none => none

set_option maxRecDepth 100000 in
/-- Sanity: parsing the spec section 8 example round-trips to canonical
(sorted-keys) form. -/
theorem loads_dumps_example :
    loadsJson (dumpV (.pdict [("task".toList, .pstr "label".toList),
                              ("reward".toList, .pint 5)])) =
      some (.pdict [("reward".toList, .pint 5),
                    ("task".toList, .pstr "label".toList)]) := by
  rfl

set_option maxRecDepth 100000 in
/-- Sanity: escapes, nesting, negative numbers and surrogate pairs all
round-trip. -/
theorem loads_dumps_example2 :
    loadsJson (dumpV (.plist [.pint (-12), .pstr ['a', '\x09', '\x7f', 'é', '😀'],
                              .pdict [], .plist [], .pbool false, .null])) =
      some (.plist [.pint (-12), .pstr ['a', '\x09', '\x7f', 'é', '😀'],
                    .pdict [], .plist [], .pbool false, .null]) := by
  rfl

/-! ## Character, hex-digit, and decimal lemmas -/

theorem char_toNat_inj {c d : Char} (h : c.toNat = d.toNat) : c = d := by
  have h2 := congrArg Char.ofNat h
  rwa [Char.ofNat_toNat, Char.ofNat_toNat] at h2

theorem char_ofNat_toNat (n : Nat) (h : n.isValidChar) : (Char.ofNat n).toNat = n := by
  simp [Char.ofNat, Char.toNat, Char.ofNatAux, h]
  rfl

theorem mkChar_self (c : Char) : mkChar c.toNat = some c := by
  unfold mkChar
  rw [if_pos (show Nat.isValidChar c.toNat from c.valid), Char.ofNat_toNat]

theorem hexChar_toNat_digit (d : Nat) (h : d < 10) : (hexChar d).toNat = 48 + d := by
  interval_cases d <;> decide

theorem hexVal_hexChar (d : Nat) (h : d < 16) : hexVal (hexChar d) = some d := by
  interval_cases d <;> decide

theorem hex4Val_hex4 (n : Nat) (h : n < 65536) :
    hex4Val (hexChar (n / 4096 % 16)) (hexChar (n / 256 % 16))
      (hexChar (n / 16 % 16)) (hexChar (n % 16)) = some n := by
  unfold hex4Val
  rw [hexVal_hexChar _ (Nat.mod_lt _ (by norm_num)),
      hexVal_hexChar _ (Nat.mod_lt _ (by norm_num)),
      hexVal_hexChar _ (Nat.mod_lt _ (by norm_num)),
      hexVal_hexChar _ (Nat.mod_lt _ (by norm_num))]
  show some _ = some n
  congr 1
  omega

/-- The tail of a parse position is a numeric delimiter: it does not start
with a digit nor with a float continuation. -/
def numDelim (l : List Char) : Prop :=
  ∀ c t, l = c :: t → ¬(48 ≤ c.toNat ∧ c.toNat ≤ 57) ∧ c ≠ '.' ∧ c ≠ 'e' ∧ c ≠ 'E'

theorem takeDigits_map (ds : List Nat) (hds : ∀ d ∈ ds, d < 10) (rest : List Char)
    (hrest : numDelim rest) :
    takeDigits (ds.map hexChar ++ rest) = (ds, rest) := by
  induction ds with
  | nil =>
      cases rest with
      | nil => rfl
      | cons c t =>
          have hc := (hrest c t rfl).1
          simp only [List.map_nil, List.nil_append]
          unfold takeDigits
          rw [if_neg hc]
  | cons d ds ih =>
      have hd : d < 10 := hds d (.head _)
      have htn : (hexChar d).toNat = 48 + d := hexChar_toNat_digit d hd
      simp only [List.map_cons, List.cons_append]
      unfold takeDigits
      rw [if_pos (by omega)]
      rw [ih (fun x hx => hds x (.tail _ hx))]
      rw [htn]
      simp

theorem foldl_digits (L : List Nat) (acc : Nat) :
    L.reverse.foldl (fun a d => a * 10 + d) acc =
      acc * 10 ^ L.length + Nat.ofDigits 10 L := by
  induction L generalizing acc with
  | nil => simp [Nat.ofDigits]
  | cons d t ih =>
      rw [List.reverse_cons, List.foldl_append, ih]
      simp only [List.foldl_cons, List.foldl_nil, List.length_cons, Nat.ofDigits_cons]
      ring

theorem natDigitsAux_eq (fuel : Nat) : ∀ n, n ≤ fuel → natDigitsAux fuel n = Nat.digits 10 n := by
  induction fuel with
  | zero =>
      intro n h
      interval_cases n
      simp [natDigitsAux]
  | succ f ih =>
      intro n h
      match n with
      | 0 => simp [natDigitsAux]
      | m + 1 =>
          rw [show natDigitsAux (f + 1) (m + 1) = (m + 1) % 10 :: natDigitsAux f ((m + 1) / 10)
            from rfl]
          rw [ih ((m + 1) / 10) (by omega)]
          rw [Nat.digits_def' (b := 10) (by norm_num) (Nat.succ_pos m)]

theorem natDigits_eq (n : Nat) : natDigits n = Nat.digits 10 n :=
  natDigitsAux_eq n n le_rfl

/-- Shape of a decimal rendering: a digit character followed by digit
characters, with a nonzero leading digit unless the number is `0`. -/
theorem natRepr_shape (m : Nat) :
    ∃ c t, natRepr m = c :: t ∧ 48 ≤ c.toNat ∧ c.toNat ≤ 57 := by
  by_cases h0 : m = 0
  · subst h0
    exact ⟨'0', [], rfl, by decide, by decide⟩
  · have hne : Nat.digits 10 m ≠ [] := Nat.digits_ne_nil_iff_ne_zero.mpr h0
    obtain ⟨c, t, hrev⟩ : ∃ c t, (Nat.digits 10 m).reverse = c :: t := by
      cases hh : (Nat.digits 10 m).reverse with
      | nil =>
          exact absurd (by simpa using congrArg List.reverse hh) hne
      | cons c t => exact ⟨c, t, rfl⟩
    have hcmem : c ∈ Nat.digits 10 m := by
      have : c ∈ (Nat.digits 10 m).reverse := by rw [hrev]; exact .head _
      simpa using this
    have hc10 : c < 10 := Nat.digits_lt_base (by norm_num) hcmem
    refine ⟨hexChar c, t.map hexChar, ?_, ?_, ?_⟩
    · unfold natRepr
      rw [if_neg h0, natDigits_eq, hrev]
      rfl
    · rw [hexChar_toNat_digit c hc10]; omega
    · rw [hexChar_toNat_digit c hc10]; omega

theorem floatCheck_delim (n : Nat) (rest : List Char) (hrest : numDelim rest) :
    floatCheck n rest = some (n, rest) := by
  cases rest with
  | nil => rfl
  | cons c t =>
      have hc := hrest c t rfl
      simp only [floatCheck]
      rw [if_neg (by
        rintro (h | h | h)
        · exact hc.2.1 h
        · exact hc.2.2.1 h
        · exact hc.2.2.2 h)]

theorem pNumNat_natRepr (m : Nat) (rest : List Char) (hrest : numDelim rest) :
    pNumNat (natRepr m ++ rest) = some (m, rest) := by
  by_cases h0 : m = 0
  · subst h0
    show pNumNat ('0' :: rest) = some (0, rest)
    simp only [pNumNat, if_true]
    cases rest with
    | nil => rfl
    | cons c t =>
        have hc := hrest c t rfl
        show (if 48 ≤ c.toNat ∧ c.toNat ≤ 57 then none
            else floatCheck 0 (c :: t)) = some (0, c :: t)
        rw [if_neg hc.1]
        exact floatCheck_delim 0 (c :: t) hrest
  · have hne : Nat.digits 10 m ≠ [] := Nat.digits_ne_nil_iff_ne_zero.mpr h0
    obtain ⟨c, t, hrev⟩ : ∃ c t, (Nat.digits 10 m).reverse = c :: t := by
      cases hh : (Nat.digits 10 m).reverse with
      | nil => exact absurd (by simpa using congrArg List.reverse hh) hne
      | cons c t => exact ⟨c, t, rfl⟩
    have hL : Nat.digits 10 m = t.reverse ++ [c] := by
      have h2 := congrArg List.reverse hrev
      simpa using h2
    have hcne : c ≠ 0 := by
      have hgl := Nat.getLast_digit_ne_zero 10 h0
      have h4 : (Nat.digits 10 m).getLast? = some c := by
        rw [hL]; exact List.getLast?_concat _
      have h6 : (Nat.digits 10 m).getLast? =
          some ((Nat.digits 10 m).getLast hne) :=
        List.getLast?_eq_getLast _ hne
      rw [h4] at h6
      intro hc0
      apply hgl
      rw [← Option.some_inj.mp h6, hc0]
    have hcmem : c ∈ Nat.digits 10 m := by
      have : c ∈ (Nat.digits 10 m).reverse := by rw [hrev]; exact .head _
      simpa using this
    have hc10 : c < 10 := Nat.digits_lt_base (by norm_num) hcmem
    have hall : ∀ d ∈ (Nat.digits 10 m).reverse, d < 10 := by
      intro d hd
      exact Nat.digits_lt_base (by norm_num) (by simpa using hd)
    have hshape : natRepr m = hexChar c :: t.map hexChar := by
      unfold natRepr
      rw [if_neg h0, natDigits_eq, hrev]
      rfl
    rw [hshape]
    have htn : (hexChar c).toNat = 48 + c := hexChar_toNat_digit c hc10
    show pNumNat (hexChar c :: (t.map hexChar ++ rest)) = some (m, rest)
    simp only [pNumNat]
    rw [if_neg (by
      intro hceq
      have h2 := congrArg Char.toNat hceq
      rw [htn, show ('0' : Char).toNat = 48 from rfl] at h2
      omega)]
    rw [if_pos (by omega)]
    have htake : takeDigits (hexChar c :: (t.map hexChar ++ rest)) = (c :: t, rest) := by
      have h2 := takeDigits_map (c :: t) (by
        intro d hd
        rcases List.mem_cons.mp hd with h | h
        · exact h ▸ hc10
        · exact hall d (by rw [hrev]; exact .tail _ h)) rest hrest
      simpa using h2
    rw [htake]
    have hval : digitsVal (c :: t) = m := by
      unfold digitsVal
      have h3 : (c :: t) = (Nat.digits 10 m).reverse := hrev.symm
      rw [h3, foldl_digits]
      simp [Nat.ofDigits_digits]
    rw [hval]
    exact floatCheck_delim m rest hrest

theorem pNum_intRepr (n : Int) (rest : List Char) (hrest : numDelim rest) :
    pNum (intRepr n ++ rest) = some (.pint n, rest) := by
  cases n with
  | ofNat m =>
      obtain ⟨c, t, hsh, h48, h57⟩ := natRepr_shape m
      show pNum (natRepr m ++ rest) = some (.pint m, rest)
      rw [hsh, List.cons_append]
      simp only [pNum]
      rw [if_neg (by
        intro hc
        have h2 := congrArg Char.toNat hc
        rw [show ('-' : Char).toNat = 45 from rfl] at h2
        omega)]
      rw [← List.cons_append, ← hsh, pNumNat_natRepr m rest hrest]
  | negSucc m =>
      show pNum ('-' :: (natRepr (m + 1) ++ rest)) = some (.pint (.negSucc m), rest)
      simp only [pNum, if_true]
      rw [pNumNat_natRepr (m + 1) rest hrest]
      show some (PyVal.pint (-((m + 1 : Nat) : Int)), rest) =
        some (PyVal.pint (Int.negSucc m), rest)
      have h2 : (-((m + 1 : Nat) : Int)) = Int.negSucc m := by
        rw [Int.negSucc_eq]
        push_cast
        ring
      rw [h2]


/-! ## String-literal round-trip -/

theorem mkChar_valid (n : Nat) (h : n.isValidChar) : mkChar n = some (Char.ofNat n) := by
  unfold mkChar
  rw [if_pos h]

theorem pStr_esc (r : List Char) : pStrM .top ('\\' :: r) = pStrM .esc r := by
  simp [pStrM]

theorem pEsc_u (r : List Char) : pStrM .esc ('u' :: r) = pStrM (.uhex 4 0) r := by
  simp [pStrM]

theorem pStrM_uhex_step (k acc d : Nat) (hk : 2 ≤ k) (hd : d < 16) (r : List Char) :
    pStrM (.uhex k acc) (hexChar d :: r) = pStrM (.uhex (k - 1) (acc * 16 + d)) r := by
  simp only [pStrM]
  rw [hexVal_hexChar d hd]
  simp only []
  rw [if_neg (by omega)]

theorem pStrM_uhex_last_char (acc d : Nat) (hd : d < 16)
    (hval : (acc * 16 + d).isValidChar)
    (hnsur : ¬(55296 ≤ acc * 16 + d ∧ acc * 16 + d ≤ 56319)) (r : List Char) :
    pStrM (.uhex 1 acc) (hexChar d :: r) =
      consA (Char.ofNat (acc * 16 + d)) (pStrM .top r) := by
  simp only [pStrM]
  rw [hexVal_hexChar d hd]
  simp only []
  rw [if_pos (le_refl 1), if_neg hnsur, mkChar_valid _ hval]
  rfl

theorem pStrM_uhex_last_sur (acc d : Nat) (hd : d < 16)
    (hsur : 55296 ≤ acc * 16 + d ∧ acc * 16 + d ≤ 56319) (r : List Char) :
    pStrM (.uhex 1 acc) (hexChar d :: r) = pStrM (.pairSlash (acc * 16 + d)) r := by
  simp only [pStrM]
  rw [hexVal_hexChar d hd]
  simp only []
  rw [if_pos (le_refl 1), if_pos hsur]

theorem pStrM_pairSlash (n : Nat) (r : List Char) :
    pStrM (.pairSlash n) ('\\' :: r) = pStrM (.pairU n) r := by
  simp [pStrM]

theorem pStrM_pairU (n : Nat) (r : List Char) :
    pStrM (.pairU n) ('u' :: r) = pStrM (.lohex 4 0 n) r := by
  simp [pStrM]

theorem pStrM_lohex_step (k acc d n : Nat) (hk : 2 ≤ k) (hd : d < 16) (r : List Char) :
    pStrM (.lohex k acc n) (hexChar d :: r) =
      pStrM (.lohex (k - 1) (acc * 16 + d) n) r := by
  simp only [pStrM]
  rw [hexVal_hexChar d hd]
  simp only []
  rw [if_neg (by omega)]

theorem pStrM_lohex_last (acc d n : Nat) (hd : d < 16)
    (hlo : 56320 ≤ acc * 16 + d ∧ acc * 16 + d ≤ 57343)
    (hval : (65536 + (n - 55296) * 1024 + (acc * 16 + d - 56320)).isValidChar)
    (r : List Char) :
    pStrM (.lohex 1 acc n) (hexChar d :: r) =
      consA (Char.ofNat (65536 + (n - 55296) * 1024 + (acc * 16 + d - 56320)))
        (pStrM .top r) := by
  simp only [pStrM]
  rw [hexVal_hexChar d hd]
  simp only []
  rw [if_pos (le_refl 1), if_pos hlo, mkChar_valid _ hval]
  rfl

/-- Parsing the four hex digits of a `\uXXXX` escape for a valid
non-surrogate BMP code point yields that character. -/
theorem pStrM_uhex4_char (n : Nat) (hvalid : n.isValidChar) (hn : n < 65536)
    (S : List Char) :
    pStrM (.uhex 4 0) (hexChar (n / 4096 % 16) :: hexChar (n / 256 % 16) ::
      hexChar (n / 16 % 16) :: hexChar (n % 16) :: S) =
      consA (Char.ofNat n) (pStrM .top S) := by
  have heq : ((0 * 16 + n / 4096 % 16) * 16 + n / 256 % 16) * 16 + n / 16 % 16 = n / 16 := by
    omega
  have heq2 : n / 16 * 16 + n % 16 = n := by omega
  have hnsur : ¬(55296 ≤ n ∧ n ≤ 56319) := by
    rcases hvalid with h | ⟨h1, h2⟩
    · omega
    · omega
  rw [pStrM_uhex_step 4 0 _ (by omega) (Nat.mod_lt _ (by norm_num)),
      pStrM_uhex_step 3 _ _ (by omega) (Nat.mod_lt _ (by norm_num)),
      pStrM_uhex_step 2 _ _ (by omega) (Nat.mod_lt _ (by norm_num))]
  show pStrM (.uhex 1 (((0 * 16 + n / 4096 % 16) * 16 + n / 256 % 16) * 16 + n / 16 % 16))
      (hexChar (n % 16) :: S) = consA (Char.ofNat n) (pStrM .top S)
  rw [heq, pStrM_uhex_last_char (n / 16) (n % 16) (Nat.mod_lt _ (by norm_num))
      (by rw [heq2]; exact hvalid) (by rw [heq2]; exact hnsur), heq2]

/-- Parsing the four hex digits of a `\uXXXX` escape in the high-surrogate
range hands over to surrogate-pair decoding. -/
theorem pStrM_uhex4_sur (n : Nat) (h55 : 55296 ≤ n) (h56 : n ≤ 56319)
    (S : List Char) :
    pStrM (.uhex 4 0) (hexChar (n / 4096 % 16) :: hexChar (n / 256 % 16) ::
      hexChar (n / 16 % 16) :: hexChar (n % 16) :: S) =
      pStrM (.pairSlash n) S := by
  have heq : ((0 * 16 + n / 4096 % 16) * 16 + n / 256 % 16) * 16 + n / 16 % 16 = n / 16 := by
    omega
  have heq2 : n / 16 * 16 + n % 16 = n := by omega
  rw [pStrM_uhex_step 4 0 _ (by omega) (Nat.mod_lt _ (by norm_num)),
      pStrM_uhex_step 3 _ _ (by omega) (Nat.mod_lt _ (by norm_num)),
      pStrM_uhex_step 2 _ _ (by omega) (Nat.mod_lt _ (by norm_num))]
  show pStrM (.uhex 1 (((0 * 16 + n / 4096 % 16) * 16 + n / 256 % 16) * 16 + n / 16 % 16))
      (hexChar (n % 16) :: S) = pStrM (.pairSlash n) S
  rw [heq, pStrM_uhex_last_sur (n / 16) (n % 16) (Nat.mod_lt _ (by norm_num))
      (by rw [heq2]; exact ⟨h55, h56⟩), heq2]

/-- Parsing the four hex digits of a low surrogate recovers the astral code
point. -/
theorem pStrM_lohex4 (n m : Nat) (h1 : 56320 ≤ m) (h2 : m ≤ 57343)
    (hval : (65536 + (n - 55296) * 1024 + (m - 56320)).isValidChar)
    (S : List Char) :
    pStrM (.lohex 4 0 n) (hexChar (m / 4096 % 16) :: hexChar (m / 256 % 16) ::
      hexChar (m / 16 % 16) :: hexChar (m % 16) :: S) =
      consA (Char.ofNat (65536 + (n - 55296) * 1024 + (m - 56320)))
        (pStrM .top S) := by
  have heq : ((0 * 16 + m / 4096 % 16) * 16 + m / 256 % 16) * 16 + m / 16 % 16 = m / 16 := by
    omega
  have heq2 : m / 16 * 16 + m % 16 = m := by omega
  rw [pStrM_lohex_step 4 0 _ n (by omega) (Nat.mod_lt _ (by norm_num)),
      pStrM_lohex_step 3 _ _ n (by omega) (Nat.mod_lt _ (by norm_num)),
      pStrM_lohex_step 2 _ _ n (by omega) (Nat.mod_lt _ (by norm_num))]
  show pStrM (.lohex 1 (((0 * 16 + m / 4096 % 16) * 16 + m / 256 % 16) * 16 + m / 16 % 16) n)
      (hexChar (m % 16) :: S) =
      consA (Char.ofNat (65536 + (n - 55296) * 1024 + (m - 56320))) (pStrM .top S)
  rw [heq, pStrM_lohex_last (m / 16) (m % 16) n (Nat.mod_lt _ (by norm_num))
      (by rw [heq2]; exact ⟨h1, h2⟩) (by rw [heq2]; exact hval), heq2]

theorem pStr_encodeChar (c : Char) (S : List Char) :
    pStrM .top (encodeChar c ++ S) = consA c (pStrM .top S) := by
  have hv : Nat.isValidChar c.toNat := c.valid
  by_cases hq : c = '"'
  · subst hq
    show pStrM .top ('\\' :: '"' :: S) = consA '"' (pStrM .top S)
    rw [pStr_esc]
    simp [pStrM]
  by_cases hbs : c = '\\'
  · subst hbs
    show pStrM .top ('\\' :: '\\' :: S) = consA '\\' (pStrM .top S)
    rw [pStr_esc]
    simp [pStrM]
  by_cases h8 : c.toNat = 8
  · rw [char_toNat_inj (show c.toNat = ('\x08' : Char).toNat from h8)]
    show pStrM .top ('\\' :: 'b' :: S) = consA '\x08' (pStrM .top S)
    rw [pStr_esc]
    simp [pStrM]
  by_cases h9 : c.toNat = 9
  · rw [char_toNat_inj (show c.toNat = ('\x09' : Char).toNat from h9)]
    show pStrM .top ('\\' :: 't' :: S) = consA '\x09' (pStrM .top S)
    rw [pStr_esc]
    simp [pStrM]
  by_cases h10 : c.toNat = 10
  · rw [char_toNat_inj (show c.toNat = ('\x0a' : Char).toNat from h10)]
    show pStrM .top ('\\' :: 'n' :: S) = consA '\x0a' (pStrM .top S)
    rw [pStr_esc]
    simp [pStrM]
  by_cases h12 : c.toNat = 12
  · rw [char_toNat_inj (show c.toNat = ('\x0c' : Char).toNat from h12)]
    show pStrM .top ('\\' :: 'f' :: S) = consA '\x0c' (pStrM .top S)
    rw [pStr_esc]
    simp [pStrM]
  by_cases h13 : c.toNat = 13
  · rw [char_toNat_inj (show c.toNat = ('\x0d' : Char).toNat from h13)]
    show pStrM .top ('\\' :: 'r' :: S) = consA '\x0d' (pStrM .top S)
    rw [pStr_esc]
    simp [pStrM]
  by_cases h32 : c.toNat < 32
  · simp only [encodeChar]
    rw [if_neg hq, if_neg hbs, if_neg h8, if_neg h9, if_neg h10, if_neg h12,
        if_neg h13, if_pos h32]
    simp only [hex4, List.cons_append, List.nil_append]
    rw [pStr_esc, pEsc_u, pStrM_uhex4_char c.toNat hv (by omega), Char.ofNat_toNat]
  by_cases h126 : c.toNat ≤ 126
  · simp only [encodeChar]
    rw [if_neg hq, if_neg hbs, if_neg h8, if_neg h9, if_neg h10, if_neg h12,
        if_neg h13, if_neg h32, if_pos h126]
    show pStrM .top (c :: S) = consA c (pStrM .top S)
    simp only [pStrM]
    rw [if_neg hq, if_neg hbs, if_neg (by omega)]
  by_cases h64 : c.toNat < 65536
  · simp only [encodeChar]
    rw [if_neg hq, if_neg hbs, if_neg h8, if_neg h9, if_neg h10, if_neg h12,
        if_neg h13, if_neg h32, if_neg h126, if_pos h64]
    simp only [hex4, List.cons_append, List.nil_append]
    rw [pStr_esc, pEsc_u, pStrM_uhex4_char c.toNat hv h64, Char.ofNat_toNat]
  · have hub : c.toNat < 1114112 := by
      rcases hv with h | ⟨h1, h2⟩ <;> omega
    have hcomb : 65536 + (55296 + (c.toNat - 65536) / 1024 - 55296) * 1024 +
        (56320 + (c.toNat - 65536) % 1024 - 56320) = c.toNat := by omega
    simp only [encodeChar]
    rw [if_neg hq, if_neg hbs, if_neg h8, if_neg h9, if_neg h10, if_neg h12,
        if_neg h13, if_neg h32, if_neg h126, if_neg h64]
    simp only [hex4, List.cons_append, List.append_assoc, List.nil_append]
    rw [pStr_esc, pEsc_u,
        pStrM_uhex4_sur (55296 + (c.toNat - 65536) / 1024) (by omega) (by omega),
        pStrM_pairSlash, pStrM_pairU,
        pStrM_lohex4 (55296 + (c.toNat - 65536) / 1024) (56320 + (c.toNat - 65536) % 1024)
          (by omega) (by omega) (by rw [hcomb]; exact hv)]
    rw [hcomb, Char.ofNat_toNat]

theorem pStr_encode (s : List Char) (rest : List Char) :
    pStr ((s.map encodeChar).flatten ++ ('"' :: rest)) = some (s, rest) := by
  unfold pStr
  induction s with
  | nil =>
      show pStrM .top ('"' :: rest) = some ([], rest)
      simp [pStrM]
  | cons c s ih =>
      simp only [List.map_cons, List.flatten_cons, List.append_assoc]
      rw [pStr_encodeChar, ih]
      rfl

/-! ## Whitespace, heads, and sorting lemmas -/

theorem skipWs_cons (c : Char) (t : List Char)
    (h : ¬(c.toNat = 32 ∨ c.toNat = 9 ∨ c.toNat = 10 ∨ c.toNat = 13)) :
    skipWs (c :: t) = c :: t := by
  simp only [skipWs]
  rw [if_neg h]

theorem skipWs_space (t : List Char) : skipWs (' ' :: t) = skipWs t := by
  simp [skipWs]

/-- The first character of a serialized value: never whitespace, never a
closing bracket or brace. -/
theorem dumpV_head (v : PyVal) (hser : serializable v = true) :
    ∃ c t, dumpV v = c :: t ∧ 34 ≤ c.toNat ∧ c.toNat ≤ 123 ∧ c.toNat ≠ 93 := by
  cases v with
  | null => exact ⟨'n', _, rfl, by decide, by decide, by decide⟩
  | pbool b =>
      cases b with
      | true => refine ⟨'t', _, rfl, ?_, ?_, ?_⟩ <;> decide
      | false => refine ⟨'f', _, rfl, ?_, ?_, ?_⟩ <;> decide
  | pint n =>
      cases n with
      | ofNat m =>
          obtain ⟨c, t, hsh, h48, h57⟩ := natRepr_shape m
          exact ⟨c, t, hsh, by omega, by omega, by omega⟩
      | negSucc m => exact ⟨'-', _, rfl, by decide, by decide, by decide⟩
  | pstr s => exact ⟨'"', _, rfl, by decide, by decide, by decide⟩
  | plist xs => exact ⟨'[', _, rfl, by decide, by decide, by decide⟩
  | pdict kvs => exact ⟨'\x7b', _, rfl, by decide, by decide, by decide⟩
  | other => simp [serializable] at hser

theorem skipWs_dump (v : PyVal) (hser : serializable v = true) (rest : List Char) :
    skipWs (dumpV v ++ rest) = dumpV v ++ rest := by
  obtain ⟨c, t, hsh, h1, h2, h3⟩ := dumpV_head v hser
  rw [hsh, List.cons_append]
  exact skipWs_cons c (t ++ rest) (by omega)

theorem mem_insPair {α : Type} (p q : List Char × α) (l : List (List Char × α))
    (h : q ∈ insPair p l) : q = p ∨ q ∈ l := by
  induction l with
  | nil => simpa [insPair] using h
  | cons a r ih =>
      simp only [insPair] at h
      split at h
      · rcases List.mem_cons.mp h with h2 | h2
        · exact Or.inl h2
        · exact Or.inr h2
      · rcases List.mem_cons.mp h with h2 | h2
        · exact Or.inr (h2 ▸ List.mem_cons_self a r)
        · rcases ih h2 with h3 | h3
          · exact Or.inl h3
          · exact Or.inr (List.mem_cons_of_mem a h3)

theorem mem_sortPairs {α : Type} (q : List Char × α) (l : List (List Char × α))
    (h : q ∈ sortPairs l) : q ∈ l := by
  induction l with
  | nil => simpa [sortPairs] using h
  | cons a r ih =>
      rcases mem_insPair a q (sortPairs r) h with h2 | h2
      · exact h2 ▸ List.mem_cons_self a r
      · exact List.mem_cons_of_mem a (ih h2)

theorem insPair_ne_nil {α : Type} (p : List Char × α) (l : List (List Char × α)) :
    insPair p l ≠ [] := by
  cases l with
  | nil => simp [insPair]
  | cons a r =>
      simp only [insPair]
      split <;> simp

theorem insPair_mapVal {α β : Type} (f : α → β) (p : List Char × α)
    (l : List (List Char × α)) :
    insPair (p.1, f p.2) (l.map (fun q => (q.1, f q.2))) =
      (insPair p l).map (fun q => (q.1, f q.2)) := by
  induction l with
  | nil => rfl
  | cons a r ih =>
      simp only [List.map_cons, insPair]
      split
      · rfl
      · rw [List.map_cons, ← ih]

theorem sortPairs_mapVal {α β : Type} (f : α → β)
    (l : List (List Char × α)) :
    sortPairs (l.map (fun q => (q.1, f q.2))) =
      (sortPairs l).map (fun q => (q.1, f q.2)) := by
  induction l with
  | nil => rfl
  | cons a r ih =>
      show insPair (a.1, f a.2) (sortPairs (r.map (fun q => (q.1, f q.2)))) = _
      rw [ih]
      exact insPair_mapVal f a (sortPairs r)

theorem dumpKV_eq_map (l : List (List Char × PyVal)) :
    dumpKV l = l.map (fun q => (q.1, dumpV q.2)) := by
  induction l with
  | nil => rfl
  | cons a r ih =>
      match a with
      | (k, v) => simp only [dumpKV, List.map_cons, ih]

theorem canonKV_eq_map (l : List (List Char × PyVal)) :
    canonKV l = l.map (fun q => (q.1, canonV q.2)) := by
  induction l with
  | nil => rfl
  | cons a r ih =>
      match a with
      | (k, v) => simp only [canonKV, List.map_cons, ih]

theorem canonKV_sortPairs (l : List (List Char × PyVal)) :
    canonKV (sortPairs l) = sortPairs (canonKV l) := by
  rw [canonKV_eq_map, canonKV_eq_map]
  exact (sortPairs_mapVal canonV l).symm

theorem serializableL_mem (xs : List PyVal) (h : serializableL xs = true) :
    ∀ x ∈ xs, serializable x = true := by
  induction xs with
  | nil => intro x hx; cases hx
  | cons a r ih =>
      simp only [serializableL, Bool.and_eq_true] at h
      intro x hx
      rcases List.mem_cons.mp hx with h2 | h2
      · exact h2 ▸ h.1
      · exact ih h.2 x h2

theorem serializableL_of_mem (xs : List PyVal)
    (h : ∀ x ∈ xs, serializable x = true) : serializableL xs = true := by
  induction xs with
  | nil => rfl
  | cons a r ih =>
      simp only [serializableL, Bool.and_eq_true]
      exact ⟨h a (.head _), ih (fun x hx => h x (.tail _ hx))⟩

theorem serializableKV_mem (kvs : List (List Char × PyVal))
    (h : serializableKV kvs = true) : ∀ q ∈ kvs, serializable q.2 = true := by
  induction kvs with
  | nil => intro q hq; cases hq
  | cons a r ih =>
      match a with
      | (k, v) =>
          simp only [serializableKV, Bool.and_eq_true] at h
          intro q hq
          rcases List.mem_cons.mp hq with h2 | h2
          · rw [h2]; exact h.1
          · exact ih h.2 q h2

/-! ## Value-level round-trip -/

theorem pVal_digit (fuel : Nat) (c : Char) (h48 : 48 ≤ c.toNat) (h57 : c.toNat ≤ 57)
    (r : List Char) : pVal (fuel + 1) (c :: r) = pNum (c :: r) := by
  obtain ⟨n, hn, h1, h2⟩ : ∃ n, c = Char.ofNat n ∧ 48 ≤ n ∧ n ≤ 57 :=
    ⟨c.toNat, (Char.ofNat_toNat c).symm, h48, h57⟩
  subst hn
  interval_cases n <;> rfl

theorem pVal_minus (fuel : Nat) (r : List Char) :
    pVal (fuel + 1) ('-' :: r) = pNum ('-' :: r) := rfl

theorem pVal_int (fuel : Nat) (n : Int) (rest : List Char) (hrest : numDelim rest) :
    pVal (fuel + 1) (intRepr n ++ rest) = some (.pint n, rest) := by
  cases n with
  | ofNat m =>
      obtain ⟨c, t, hsh, h48, h57⟩ := natRepr_shape m
      show pVal (fuel + 1) (natRepr m ++ rest) = some (.pint m, rest)
      rw [hsh, List.cons_append, pVal_digit fuel c h48 h57, ← List.cons_append, ← hsh]
      exact pNum_intRepr (.ofNat m) rest hrest
  | negSucc m =>
      show pVal (fuel + 1) ('-' :: (natRepr (m + 1) ++ rest)) =
        some (.pint (.negSucc m), rest)
      rw [pVal_minus]
      exact pNum_intRepr (.negSucc m) rest hrest

theorem pVal_null (fuel : Nat) (r : List Char) :
    pVal (fuel + 1) ('n' :: 'u' :: 'l' :: 'l' :: r) = some (.null, r) := rfl

theorem pVal_true (fuel : Nat) (r : List Char) :
    pVal (fuel + 1) ('t' :: 'r' :: 'u' :: 'e' :: r) = some (.pbool true, r) := rfl

theorem pVal_false (fuel : Nat) (r : List Char) :
    pVal (fuel + 1) ('f' :: 'a' :: 'l' :: 's' :: 'e' :: r) = some (.pbool false, r) := rfl

theorem pVal_str (fuel : Nat) (r s rest : List Char) (h : pStr r = some (s, rest)) :
    pVal (fuel + 1) ('"' :: r) = some (.pstr s, rest) := by
  have hred : pVal (fuel + 1) ('"' :: r) =
      match pStr r with
      | some (str, rest) => some (.pstr str, rest)
      | none => none := rfl
  rw [hred, h]

theorem pVal_encodeStr (fuel : Nat) (s : List Char) (rest : List Char) :
    pVal (fuel + 1) (encodeStr s ++ rest) = some (.pstr s, rest) := by
  show pVal (fuel + 1) ('"' :: (((s.map encodeChar).flatten ++ ['"']) ++ rest)) =
    some (.pstr s, rest)
  rw [List.append_assoc, List.singleton_append]
  exact pVal_str fuel _ s rest (pStr_encode s rest)

theorem pVal_list_nil (fuel : Nat) (r r2 : List Char) (hskip : skipWs r = ']' :: r2) :
    pVal (fuel + 1) ('[' :: r) = some (.plist [], r2) := by
  have hred : pVal (fuel + 1) ('[' :: r) =
      (match skipWs r with
       | ']' :: r2 => some (.plist [], r2)
       | r1 =>
           match pElems fuel r1 with
           | some (vs, rest) => some (.plist vs, rest)
           | none => none) := rfl
  rw [hred, hskip]
  rfl

theorem pVal_list (fuel : Nat) (r : List Char) (c : Char) (t : List Char)
    (hskip : skipWs r = c :: t) (hc : c ≠ ']') (vs : List PyVal) (rest : List Char)
    (h : pElems fuel (c :: t) = some (vs, rest)) :
    pVal (fuel + 1) ('[' :: r) = some (.plist vs, rest) := by
  have hred : pVal (fuel + 1) ('[' :: r) =
      (match skipWs r with
       | ']' :: r2 => some (.plist [], r2)
       | r1 =>
           match pElems fuel r1 with
           | some (vs, rest) => some (.plist vs, rest)
           | none => none) := rfl
  rw [hred, hskip]
  split
  · rename_i r2 heq
    exact absurd (List.cons.injEq .. ▸ heq) (by simp [hc])
  · rw [h]

theorem pVal_dict_nil (fuel : Nat) (r r2 : List Char) (hskip : skipWs r = '\x7d' :: r2) :
    pVal (fuel + 1) ('\x7b' :: r) = some (.pdict [], r2) := by
  have hred : pVal (fuel + 1) ('\x7b' :: r) =
      (match skipWs r with
       | '\x7d' :: r2 => some (.pdict [], r2)
       | r1 =>
           match pMembers fuel r1 with
           | some (kvs, rest) => some (.pdict kvs, rest)
           | none => none) := rfl
  rw [hred, hskip]
  rfl

theorem pVal_dict (fuel : Nat) (r : List Char) (c : Char) (t : List Char)
    (hskip : skipWs r = c :: t) (hc : c ≠ '\x7d') (kvs : List (List Char × PyVal))
    (rest : List Char) (h : pMembers fuel (c :: t) = some (kvs, rest)) :
    pVal (fuel + 1) ('\x7b' :: r) = some (.pdict kvs, rest) := by
  have hred : pVal (fuel + 1) ('\x7b' :: r) =
      (match skipWs r with
       | '\x7d' :: r2 => some (.pdict [], r2)
       | r1 =>
           match pMembers fuel r1 with
           | some (kvs, rest) => some (.pdict kvs, rest)
           | none => none) := rfl
  rw [hred, hskip]
  split
  · rename_i r2 heq
    exact absurd (List.cons.injEq .. ▸ heq) (by simp [hc])
  · rw [h]

theorem numDelim_nil : numDelim [] := by
  intro c t h
  cases h

theorem numDelim_comma (X : List Char) : numDelim (',' :: X) := by
  intro c t h
  injection h with h1 h2
  subst h1
  exact ⟨by decide, by decide, by decide, by decide⟩

theorem numDelim_rbrack (X : List Char) : numDelim (']' :: X) := by
  intro c t h
  injection h with h1 h2
  subst h1
  exact ⟨by decide, by decide, by decide, by decide⟩

theorem numDelim_rbrace (X : List Char) : numDelim ('\x7d' :: X) := by
  intro c t h
  injection h with h1 h2
  subst h1
  exact ⟨by decide, by decide, by decide, by decide⟩

theorem skipWs_joinComma (y : PyVal) (ys : List PyVal) (hy : serializable y = true)
    (T : List Char) :
    skipWs (joinComma (dumpL (y :: ys)) ++ T) = joinComma (dumpL (y :: ys)) ++ T := by
  cases ys with
  | nil =>
      show skipWs (dumpV y ++ T) = dumpV y ++ T
      exact skipWs_dump y hy T
  | cons z zs =>
      show skipWs ((dumpV y ++ ',' :: ' ' :: joinComma (dumpL (z :: zs))) ++ T) =
        (dumpV y ++ ',' :: ' ' :: joinComma (dumpL (z :: zs))) ++ T
      rw [List.append_assoc]
      exact skipWs_dump y hy _

theorem pElems_dump (xs : List PyVal) : ∀ (fuel : Nat) (rest : List Char),
    (∀ x ∈ xs, ∀ f r, (dumpV x).length < f → numDelim r →
        pVal f (dumpV x ++ r) = some (canonV x, r)) →
    serializableL xs = true → xs ≠ [] →
    (joinComma (dumpL xs)).length + 1 < fuel →
    pElems fuel (joinComma (dumpL xs) ++ (']' :: rest)) = some (canonL xs, rest) := by
  induction xs with
  | nil =>
      intro fuel rest _ _ hne _
      exact absurd rfl hne
  | cons x xs ih =>
      intro fuel rest hIH hser hne hfuel
      have hserx : serializable x = true := (serializableL_mem _ hser) x (.head _)
      cases fuel with
      | zero => omega
      | succ f =>
          cases xs with
          | nil =>
              have hjc : joinComma (dumpL [x]) = dumpV x := rfl
              rw [hjc] at hfuel ⊢
              simp only [pElems]
              rw [hIH x (.head _) f (']' :: rest) (by omega) (numDelim_rbrack rest)]
              simp only []
              rw [skipWs_cons ']' rest (by decide)]
              rfl
          | cons y ys =>
              have hy : serializable y = true :=
                (serializableL_mem _ hser) y (.tail _ (.head _))
              have hserys : serializableL (y :: ys) = true :=
                serializableL_of_mem _ (fun z hz =>
                  (serializableL_mem _ hser) z (.tail _ hz))
              have hjc : joinComma (dumpL (x :: y :: ys)) =
                  dumpV x ++ ',' :: ' ' :: joinComma (dumpL (y :: ys)) := rfl
              rw [hjc] at hfuel ⊢
              have hlen : (dumpV x ++ ',' :: ' ' :: joinComma (dumpL (y :: ys))).length =
                  (dumpV x).length + 2 + (joinComma (dumpL (y :: ys))).length := by
                simp [List.length_append]
                omega
              rw [hlen] at hfuel
              rw [List.append_assoc]
              simp only [List.cons_append]
              simp only [pElems]
              rw [hIH x (.head _) f _ (by omega) (numDelim_comma _)]
              simp only []
              rw [skipWs_cons ',' _ (by decide)]
              simp only []
              have hrec : pElems f (skipWs (' ' :: (joinComma (dumpL (y :: ys)) ++ ']' :: rest))) =
                  some (canonL (y :: ys), rest) := by
                rw [skipWs_space, skipWs_joinComma y ys hy]
                exact ih f rest
                  (fun z hz => hIH z (.tail _ hz))
                  hserys (by simp) (by omega)
              rw [hrec]
              rfl

theorem skipWs_item (q : List Char × PyVal) (T : List Char) :
    skipWs (itemText (q.1, dumpV q.2) ++ T) = itemText (q.1, dumpV q.2) ++ T := by
  show skipWs ('"' :: (((q.1.map encodeChar).flatten ++ ['"']) ++
      (':' :: ' ' :: dumpV q.2)) ++ T) = _
  rw [List.cons_append]
  exact skipWs_cons '"' _ (by decide)

theorem skipWs_joinItems (q : List Char × PyVal) (qs : List (List Char × PyVal))
    (T : List Char) :
    skipWs (joinComma ((q :: qs).map (fun p => itemText (p.1, dumpV p.2))) ++ T) =
      joinComma ((q :: qs).map (fun p => itemText (p.1, dumpV p.2))) ++ T := by
  cases qs with
  | nil =>
      show skipWs (itemText (q.1, dumpV q.2) ++ T) = _
      exact skipWs_item q T
  | cons z zs =>
      show skipWs ((itemText (q.1, dumpV q.2) ++ ',' :: ' ' ::
          joinComma ((z :: zs).map (fun p => itemText (p.1, dumpV p.2)))) ++ T) =
        (itemText (q.1, dumpV q.2) ++ ',' :: ' ' ::
          joinComma ((z :: zs).map (fun p => itemText (p.1, dumpV p.2)))) ++ T
      simp only [List.append_assoc]
      exact skipWs_item q _

theorem itemText_length (k : List Char) (s : List Char) :
    (itemText (k, s)).length = (encodeStr k).length + 2 + s.length := by
  simp [itemText, List.length_append]
  omega

theorem pMembers_dump (qs : List (List Char × PyVal)) : ∀ (fuel : Nat) (rest : List Char),
    (∀ q ∈ qs, ∀ f r, (dumpV q.2).length < f → numDelim r →
        pVal f (dumpV q.2 ++ r) = some (canonV q.2, r)) →
    (∀ q ∈ qs, serializable q.2 = true) → qs ≠ [] →
    (joinComma (qs.map (fun p => itemText (p.1, dumpV p.2)))).length + 1 < fuel →
    pMembers fuel (joinComma (qs.map (fun p => itemText (p.1, dumpV p.2))) ++
        ('\x7d' :: rest)) =
      some (qs.map (fun p => (p.1, canonV p.2)), rest) := by
  induction qs with
  | nil =>
      intro fuel rest _ _ hne _
      exact absurd rfl hne
  | cons q qs ih =>
      intro fuel rest hIH hser hne hfuel
      have hserq : serializable q.2 = true := hser q (.head _)
      cases fuel with
      | zero => omega
      | succ f =>
          cases qs with
          | nil =>
              have hjc : joinComma ([q].map (fun p => itemText (p.1, dumpV p.2))) =
                  itemText (q.1, dumpV q.2) := rfl
              rw [hjc] at hfuel ⊢
              rw [itemText_length] at hfuel
              show pMembers (f + 1) ('"' :: ((((q.1.map encodeChar).flatten ++ ['"']) ++
                  (':' :: ' ' :: dumpV q.2)) ++ '\x7d' :: rest)) = _
              simp only [pMembers]
              rw [List.append_assoc, List.append_assoc, List.singleton_append]
              rw [pStr_encode q.1 _]
              simp only []
              simp only [List.cons_append]
              rw [skipWs_cons ':' _ (by decide)]
              simp only []
              rw [skipWs_space]
              rw [skipWs_dump q.2 hserq _]
              rw [hIH q (.head _) f _ (by omega) (numDelim_rbrace rest)]
              simp only []
              rw [skipWs_cons '\x7d' _ (by decide)]
              rfl
          | cons z zs =>
              have hserz : ∀ p ∈ z :: zs, serializable p.2 = true :=
                fun p hp => hser p (.tail _ hp)
              have hjc : joinComma ((q :: z :: zs).map (fun p => itemText (p.1, dumpV p.2))) =
                  itemText (q.1, dumpV q.2) ++ ',' :: ' ' ::
                    joinComma ((z :: zs).map (fun p => itemText (p.1, dumpV p.2))) := rfl
              rw [hjc] at hfuel ⊢
              have hlen : (itemText (q.1, dumpV q.2) ++ ',' :: ' ' ::
                  joinComma ((z :: zs).map (fun p => itemText (p.1, dumpV p.2)))).length =
                  (encodeStr q.1).length + 2 + (dumpV q.2).length + 2 +
                    (joinComma ((z :: zs).map (fun p => itemText (p.1, dumpV p.2)))).length := by
                rw [List.length_append, itemText_length]
                simp
                omega
              rw [hlen] at hfuel
              rw [List.append_assoc]
              show pMembers (f + 1) ('"' :: ((((q.1.map encodeChar).flatten ++ ['"']) ++
                  (':' :: ' ' :: dumpV q.2)) ++ (',' :: ' ' ::
                    joinComma ((z :: zs).map (fun p => itemText (p.1, dumpV p.2))) ++
                      '\x7d' :: rest))) = _
              simp only [pMembers]
              rw [List.append_assoc, List.append_assoc, List.singleton_append]
              rw [pStr_encode q.1 _]
              simp only []
              simp only [List.cons_append]
              rw [skipWs_cons ':' _ (by decide)]
              simp only []
              rw [skipWs_space]
              rw [skipWs_dump q.2 hserq _]
              rw [hIH q (.head _) f _ (by omega) (numDelim_comma _)]
              simp only []
              rw [skipWs_cons ',' _ (by decide)]
              simp only []
              have hrec : pMembers f (skipWs (' ' ::
                  (joinComma ((z :: zs).map (fun p => itemText (p.1, dumpV p.2))) ++
                    '\x7d' :: rest))) =
                  some ((z :: zs).map (fun p => (p.1, canonV p.2)), rest) := by
                rw [skipWs_space, skipWs_joinItems z zs _]
                exact ih f rest (fun p hp => hIH p (.tail _ hp)) hserz (by simp) (by omega)
              rw [hrec]
              rfl

theorem sortPairs_cons {α : Type} (a : List Char × α) (l : List (List Char × α)) :
    sortPairs (a :: l) = insPair a (sortPairs l) := rfl

theorem sortPairs_dumpKV (kvs : List (List Char × PyVal)) :
    sortPairs (dumpKV kvs) = (sortPairs kvs).map (fun q => (q.1, dumpV q.2)) := by
  rw [dumpKV_eq_map]
  exact sortPairs_mapVal dumpV kvs

theorem joinItems_head (q : List Char × PyVal) (qs : List (List Char × PyVal))
    (T : List Char) :
    ∃ t, joinComma ((q :: qs).map (fun p => itemText (p.1, dumpV p.2))) ++ T = '"' :: t := by
  cases qs with
  | nil =>
      refine ⟨((q.1.map encodeChar).flatten ++ ['"']) ++ (':' :: ' ' :: dumpV q.2) ++ T, ?_⟩
      show (('"' :: (((q.1.map encodeChar).flatten ++ ['"']) ++ (':' :: ' ' :: dumpV q.2))) ++ T) = _
      simp [List.cons_append, List.append_assoc]
  | cons z zs =>
      refine ⟨((q.1.map encodeChar).flatten ++ ['"']) ++ (':' :: ' ' :: dumpV q.2) ++
        (',' :: ' ' :: joinComma ((z :: zs).map (fun p => itemText (p.1, dumpV p.2)))) ++ T, ?_⟩
      show ((('"' :: (((q.1.map encodeChar).flatten ++ ['"']) ++ (':' :: ' ' :: dumpV q.2))) ++
        ',' :: ' ' :: joinComma ((z :: zs).map (fun p => itemText (p.1, dumpV p.2)))) ++ T) = _
      simp [List.cons_append, List.append_assoc]


theorem joinComma_dump_head (x : PyVal) (xs : List PyVal) (c : Char) (tx : List Char)
    (h : dumpV x = c :: tx) :
    ∃ t, ∀ T : List Char, joinComma (dumpL (x :: xs)) ++ T = c :: (t ++ T) := by
  cases xs with
  | nil =>
      refine ⟨tx, fun T => ?_⟩
      show dumpV x ++ T = c :: (tx ++ T)
      rw [h]
      rfl
  | cons z zs =>
      refine ⟨tx ++ ',' :: ' ' :: joinComma (dumpL (z :: zs)), fun T => ?_⟩
      show (dumpV x ++ ',' :: ' ' :: joinComma (dumpL (z :: zs))) ++ T = _
      rw [h]
      simp [List.cons_append, List.append_assoc]

/-- `json.loads ∘ json.dumps` at the value level: parsing the sorted-keys
serialization of any serializable value yields its canonical form, leaving
any delimiter-headed remainder untouched. -/
theorem pVal_dumpV : ∀ (N : Nat) (v : PyVal), sizeOf v < N → serializable v = true →
    ∀ (fuel : Nat) (rest : List Char), (dumpV v).length < fuel → numDelim rest →
    pVal fuel (dumpV v ++ rest) = some (canonV v, rest) := by
  intro N
  induction N with
  | zero => intro v h; omega
  | succ N IH =>
      intro v hsize hser fuel rest hfuel hrest
      obtain ⟨f, rfl⟩ : ∃ f, fuel = f + 1 := by
        cases fuel with
        | zero => omega
        | succ f => exact ⟨f, rfl⟩
      cases v with
      | null => exact pVal_null f rest
      | pbool b =>
          cases b with
          | true => exact pVal_true f rest
          | false => exact pVal_false f rest
      | pint n => exact pVal_int f n rest hrest
      | pstr s => exact pVal_encodeStr f s rest
      | plist xs =>
          have hserL : serializableL xs = true := hser
          cases xs with
          | nil =>
              exact pVal_list_nil f _ rest (skipWs_cons ']' rest (by decide))
          | cons x xs' =>
              have hmemsz : ∀ z ∈ x :: xs', sizeOf z < N := by
                intro z hz
                have h1 := List.sizeOf_lt_of_mem hz
                have h2 : sizeOf (PyVal.plist (x :: xs')) = 1 + sizeOf (x :: xs') := by
                  simp
                omega
              have hIHm : ∀ z ∈ x :: xs', ∀ fz rz, (dumpV z).length < fz → numDelim rz →
                  pVal fz (dumpV z ++ rz) = some (canonV z, rz) := by
                intro z hz fz rz h1 h2
                exact IH z (hmemsz z hz) ((serializableL_mem _ hserL) z hz) fz rz h1 h2
              have hserx : serializable x = true := (serializableL_mem _ hserL) x (.head _)
              obtain ⟨c, t0, hsh, hc1, hc2, hc3⟩ := dumpV_head x hserx
              obtain ⟨t, hJ⟩ := joinComma_dump_head x xs' c t0 hsh
              have hlen : (dumpV (PyVal.plist (x :: xs'))).length =
                  (joinComma (dumpL (x :: xs'))).length + 2 := by
                show ('[' :: (joinComma (dumpL (x :: xs')) ++ [']'])).length = _
                simp
              show pVal (f + 1)
                  ('[' :: ((joinComma (dumpL (x :: xs')) ++ [']']) ++ rest)) =
                some (PyVal.plist (canonL (x :: xs')), rest)
              have hr : (joinComma (dumpL (x :: xs')) ++ [']']) ++ rest =
                  joinComma (dumpL (x :: xs')) ++ (']' :: rest) := by
                simp [List.append_assoc]
              rw [hr]
              have hskip : skipWs (joinComma (dumpL (x :: xs')) ++ (']' :: rest)) =
                  c :: (t ++ (']' :: rest)) := by
                rw [skipWs_joinComma x xs' hserx (']' :: rest)]
                exact hJ (']' :: rest)
              have hcne : c ≠ ']' := by
                intro he
                apply hc3
                rw [he]
                rfl
              have hpe : pElems f (c :: (t ++ (']' :: rest))) =
                  some (canonL (x :: xs'), rest) := by
                rw [← hJ (']' :: rest)]
                exact pElems_dump (x :: xs') f rest hIHm hserL (by simp) (by omega)
              exact pVal_list f _ c (t ++ (']' :: rest)) hskip hcne _ rest hpe
      | pdict kvs =>
          have hserKV : serializableKV kvs = true := hser
          cases kvs with
          | nil =>
              exact pVal_dict_nil f _ rest (skipWs_cons '\x7d' rest (by decide))
          | cons k0 kr =>
              have hqs_ne : sortPairs (k0 :: kr) ≠ [] := by
                rw [sortPairs_cons]
                exact insPair_ne_nil k0 (sortPairs kr)
              obtain ⟨q0, qs', hqs⟩ := List.exists_cons_of_ne_nil hqs_ne
              have hmemIH : ∀ q ∈ q0 :: qs', ∀ fz rz, (dumpV q.2).length < fz →
                  numDelim rz → pVal fz (dumpV q.2 ++ rz) = some (canonV q.2, rz) := by
                intro q hq fz rz h1 h2
                have hqk : q ∈ k0 :: kr := mem_sortPairs q (k0 :: kr) (hqs ▸ hq)
                have hsz : sizeOf q.2 < N := by
                  have h3 := List.sizeOf_lt_of_mem hqk
                  have h4 : sizeOf (PyVal.pdict (k0 :: kr)) = 1 + sizeOf (k0 :: kr) := by
                    simp
                  obtain ⟨qk, qv⟩ := q
                  have h5 : sizeOf ((qk, qv) : List Char × PyVal) =
                      1 + sizeOf qk + sizeOf qv := by simp
                  simp only at h3 ⊢
                  omega
                exact IH q.2 hsz (serializableKV_mem _ hserKV q hqk) fz rz h1 h2
              have hmemser : ∀ q ∈ q0 :: qs', serializable q.2 = true := by
                intro q hq
                exact serializableKV_mem _ hserKV q (mem_sortPairs q (k0 :: kr) (hqs ▸ hq))
              have hmap : (sortPairs (dumpKV (k0 :: kr))).map itemText =
                  (q0 :: qs').map (fun p => itemText (p.1, dumpV p.2)) := by
                rw [sortPairs_dumpKV, List.map_map, hqs]
                rfl
              have hlen : (dumpV (PyVal.pdict (k0 :: kr))).length =
                  (joinComma ((sortPairs (dumpKV (k0 :: kr))).map itemText)).length + 2 := by
                show ('\x7b' :: (joinComma ((sortPairs (dumpKV (k0 :: kr))).map itemText)
                  ++ ['\x7d'])).length = _
                simp
              show pVal (f + 1)
                  ('\x7b' :: ((joinComma ((sortPairs (dumpKV (k0 :: kr))).map itemText)
                    ++ ['\x7d']) ++ rest)) =
                some (PyVal.pdict (sortPairs (canonKV (k0 :: kr))), rest)
              rw [hmap] at hlen ⊢
              have hr : (joinComma ((q0 :: qs').map (fun p => itemText (p.1, dumpV p.2)))
                  ++ ['\x7d']) ++ rest =
                  joinComma ((q0 :: qs').map (fun p => itemText (p.1, dumpV p.2)))
                    ++ ('\x7d' :: rest) := by
                simp [List.append_assoc]
              rw [hr]
              obtain ⟨t, ht⟩ := joinItems_head q0 qs' ('\x7d' :: rest)
              have hskip : skipWs (joinComma
                  ((q0 :: qs').map (fun p => itemText (p.1, dumpV p.2)))
                    ++ ('\x7d' :: rest)) = '"' :: t := by
                rw [skipWs_joinItems q0 qs' ('\x7d' :: rest)]
                exact ht
              have hpm : pMembers f ('"' :: t) =
                  some ((q0 :: qs').map (fun p => (p.1, canonV p.2)), rest) := by
                rw [← ht]
                exact pMembers_dump (q0 :: qs') f rest hmemIH hmemser (by simp) (by omega)
              have hres : (q0 :: qs').map (fun p => (p.1, canonV p.2)) =
                  sortPairs (canonKV (k0 :: kr)) := by
                rw [← hqs, ← canonKV_eq_map, canonKV_sortPairs]
              rw [hres] at hpm
              exact pVal_dict f _ '"' t hskip (by decide) _ rest hpm
      | other => simp [serializable] at hser

/-- `json.loads (json.dumps v)` recovers the canonical (sorted-keys) form of
any serializable value. -/
theorem loads_dumpV (v : PyVal) (hser : serializable v = true) :
    loadsJson (dumpV v) = some (canonV v) := by
  have hskip : skipWs (dumpV v) = dumpV v := by
    have h := skipWs_dump v hser []
    simpa using h
  have hp : pVal ((dumpV v).length + 1) (dumpV v) = some (canonV v, []) := by
    have h := pVal_dumpV (sizeOf v + 1) v (by omega) hser ((dumpV v).length + 1) []
      (by omega) numDelim_nil
    simpa using h
  rw [loadsJson, hskip, hp]
  rfl

/-! ## ASCII form of the serialization

`json.dumps` with the default `ensure_ascii=True` emits only printable ASCII,
so the UTF-8 encoding of its output (line 155 of the source) is exactly the
list of code points, `strBytes`. -/

theorem hexChar_range (n : Nat) : 48 ≤ (hexChar n).toNat ∧ (hexChar n).toNat ≤ 102 := by
  rcases Nat.lt_or_ge n 15 with h | h
  · interval_cases n <;> decide
  · obtain ⟨m, rfl⟩ : ∃ m, n = m + 15 := ⟨n - 15, by omega⟩
    have hf : hexChar (m + 15) = 'f' := rfl
    rw [hf]
    decide

theorem mem_hex4 (n : Nat) : ∀ c ∈ hex4 n, 32 ≤ c.toNat ∧ c.toNat ≤ 126 := by
  intro c hc
  simp only [hex4, List.mem_cons, List.not_mem_nil, or_false] at hc
  rcases hc with h | h | h | h <;>
    · subst h
      exact ⟨le_trans (by omega) (hexChar_range _).1,
             le_trans (hexChar_range _).2 (by omega)⟩

theorem mem_natRepr (n : Nat) : ∀ c ∈ natRepr n, 32 ≤ c.toNat ∧ c.toNat ≤ 126 := by
  intro c hc
  unfold natRepr at hc
  split at hc
  · simp only [List.mem_cons, List.not_mem_nil, or_false] at hc
    subst hc
    decide
  · simp only [List.mem_map] at hc
    obtain ⟨d, _, rfl⟩ := hc
    exact ⟨le_trans (by omega) (hexChar_range _).1,
           le_trans (hexChar_range _).2 (by omega)⟩

theorem mem_intRepr (i : Int) : ∀ c ∈ intRepr i, 32 ≤ c.toNat ∧ c.toNat ≤ 126 := by
  intro c hc
  cases i with
  | ofNat n => exact mem_natRepr n c hc
  | negSucc m =>
      rcases List.mem_cons.mp hc with h | h
      · subst h
        decide
      · exact mem_natRepr (m + 1) c h

theorem mem_encodeChar (ch : Char) : ∀ c ∈ encodeChar ch, 32 ≤ c.toNat ∧ c.toNat ≤ 126 := by
  intro c hc
  unfold encodeChar at hc
  repeat' split at hc
  all_goals
    first
    | (simp only [List.mem_cons, List.not_mem_nil, or_false] at hc
       rcases hc with rfl | rfl <;> decide)
    | (simp only [List.mem_cons, List.not_mem_nil, or_false] at hc
       subst hc
       omega)
    | (rcases List.mem_cons.mp hc with rfl | hc2
       · decide
       · rcases List.mem_cons.mp hc2 with rfl | hc3
         · decide
         · exact mem_hex4 _ c hc3)
    | (simp only [List.cons_append, List.mem_cons, List.mem_append] at hc
       rcases hc with rfl | rfl | hc2 | rfl | rfl | hc2 <;>
         first
         | decide
         | exact mem_hex4 _ c hc2)

theorem mem_encodeStr (s : List Char) : ∀ c ∈ encodeStr s, 32 ≤ c.toNat ∧ c.toNat ≤ 126 := by
  intro c hc
  unfold encodeStr at hc
  rcases List.mem_cons.mp hc with rfl | hc2
  · decide
  · rcases List.mem_append.mp hc2 with hc3 | hc4
    · simp only [List.mem_flatten, List.mem_map] at hc3
      obtain ⟨x, ⟨ch, _, rfl⟩, hcx⟩ := hc3
      exact mem_encodeChar ch c hcx
    · simp only [List.mem_cons, List.not_mem_nil, or_false] at hc4
      subst hc4
      decide

theorem mem_joinComma (L : List (List Char)) :
    ∀ c ∈ joinComma L, (∃ x ∈ L, c ∈ x) ∨ c = ',' ∨ c = ' ' := by
  induction L with
  | nil => intro c hc; cases hc
  | cons x t ih =>
      cases t with
      | nil =>
          intro c hc
          exact Or.inl ⟨x, List.mem_cons_self x [], hc⟩
      | cons y r =>
          intro c hc
          have hc2 : c ∈ x ++ ',' :: ' ' :: joinComma (y :: r) := hc
          rcases List.mem_append.mp hc2 with h | h
          · exact Or.inl ⟨x, List.mem_cons_self x (y :: r), h⟩
          · rcases List.mem_cons.mp h with rfl | h2
            · exact Or.inr (Or.inl rfl)
            · rcases List.mem_cons.mp h2 with rfl | h3
              · exact Or.inr (Or.inr rfl)
              · rcases ih c h3 with ⟨z, hz, hcz⟩ | h4
                · exact Or.inl ⟨z, List.mem_cons_of_mem x hz, hcz⟩
                · exact Or.inr h4

theorem dumpL_eq_map (xs : List PyVal) : dumpL xs = xs.map dumpV := by
  induction xs with
  | nil => rfl
  | cons a r ih => simp only [dumpL, List.map_cons, ih]

/-- Every character `json.dumps` emits is printable ASCII (`ensure_ascii`),
so the UTF-8 bytes of the serialization are exactly its code points. -/
theorem dumpV_ascii : ∀ (N : Nat) (v : PyVal), sizeOf v < N →
    ∀ c ∈ dumpV v, 32 ≤ c.toNat ∧ c.toNat ≤ 126 := by
  intro N
  induction N with
  | zero => intro v h; omega
  | succ N IH =>
      intro v hsize c hc
      cases v with
      | null =>
          have h : c ∈ ['n', 'u', 'l', 'l'] := hc
          simp only [List.mem_cons, List.not_mem_nil, or_false] at h
          rcases h with rfl | rfl | rfl | rfl <;> decide
      | pbool b =>
          cases b with
          | true =>
              have h : c ∈ ['t', 'r', 'u', 'e'] := hc
              simp only [List.mem_cons, List.not_mem_nil, or_false] at h
              rcases h with rfl | rfl | rfl | rfl <;> decide
          | false =>
              have h : c ∈ ['f', 'a', 'l', 's', 'e'] := hc
              simp only [List.mem_cons, List.not_mem_nil, or_false] at h
              rcases h with rfl | rfl | rfl | rfl | rfl <;> decide
      | pint n => exact mem_intRepr n c hc
      | pstr s => exact mem_encodeStr s c hc
      | plist xs =>
          have h : c ∈ '[' :: (joinComma (dumpL xs) ++ [']']) := hc
          rcases List.mem_cons.mp h with rfl | h2
          · decide
          rcases List.mem_append.mp h2 with h3 | h4
          · rcases mem_joinComma (dumpL xs) c h3 with ⟨x, hx, hcx⟩ | h5 | h5
            · rw [dumpL_eq_map] at hx
              obtain ⟨y, hy, rfl⟩ := List.mem_map.mp hx
              have hsz : sizeOf y < N := by
                have h6 := List.sizeOf_lt_of_mem hy
                have h7 : sizeOf (PyVal.plist xs) = 1 + sizeOf xs := by simp
                omega
              exact IH y hsz c hcx
            · subst h5; decide
            · subst h5; decide
          · simp only [List.mem_cons, List.not_mem_nil, or_false] at h4
            subst h4
            decide
      | pdict kvs =>
          have h : c ∈ '{' ::
              (joinComma ((sortPairs (dumpKV kvs)).map itemText) ++ ['}']) := hc
          rcases List.mem_cons.mp h with rfl | h2
          · decide
          rcases List.mem_append.mp h2 with h3 | h4
          · rcases mem_joinComma _ c h3 with ⟨x, hx, hcx⟩ | h5 | h5
            · obtain ⟨p, hp, rfl⟩ := List.mem_map.mp hx
              have hp2 : p ∈ dumpKV kvs := mem_sortPairs p (dumpKV kvs) hp
              rw [dumpKV_eq_map] at hp2
              obtain ⟨q, hq, rfl⟩ := List.mem_map.mp hp2
              have hit : c ∈ encodeStr q.1 ++ ':' :: ' ' :: dumpV q.2 := hcx
              rcases List.mem_append.mp hit with h6 | h7
              · exact mem_encodeStr q.1 c h6
              · rcases List.mem_cons.mp h7 with rfl | h8
                · decide
                rcases List.mem_cons.mp h8 with rfl | h9
                · decide
                · have hsz : sizeOf q.2 < N := by
                    have ha := List.sizeOf_lt_of_mem hq
                    have hb : sizeOf (PyVal.pdict kvs) = 1 + sizeOf kvs := by simp
                    obtain ⟨qk, qv⟩ := q
                    have hd : sizeOf ((qk, qv) : List Char × PyVal) =
                        1 + sizeOf qk + sizeOf qv := by simp
                    simp only at ha ⊢
                    omega
                  exact IH q.2 hsz c h9
            · subst h5; decide
            · subst h5; decide
          · simp only [List.mem_cons, List.not_mem_nil, or_false] at h4
            subst h4
            decide
      | other => cases hc

/-- `bytes.decode('utf-8')` restricted to ASCII payloads (the only payloads
this gateway produces: see `dumpV_ascii`): each byte is one code point. -/
def decodeAscii (bs : List Nat) : List Char := bs.map Char.ofNat

theorem decodeAscii_strBytes (s : List Char) : decodeAscii (strBytes s) = s := by
  unfold decodeAscii strBytes
  rw [List.map_map]
  simp [Function.comp_def, Char.ofNat_toNat]

/-! ## Canonical form is idempotent (document equality) -/

theorem keyLe_total (a b : List Char) : keyLe a b = true ∨ keyLe b a = true := by
  induction a generalizing b with
  | nil => exact Or.inl rfl
  | cons x xs ih =>
      cases b with
      | nil => exact Or.inr rfl
      | cons y ys =>
          rcases Nat.lt_trichotomy x.toNat y.toNat with h | h | h
          · refine Or.inl ?_
            show (if x.toNat < y.toNat then true
              else if y.toNat < x.toNat then false else keyLe xs ys) = true
            rw [if_pos h]
          · rcases ih ys with h2 | h2
            · refine Or.inl ?_
              show (if x.toNat < y.toNat then true
                else if y.toNat < x.toNat then false else keyLe xs ys) = true
              rw [if_neg (by omega), if_neg (by omega)]
              exact h2
            · refine Or.inr ?_
              show (if y.toNat < x.toNat then true
                else if x.toNat < y.toNat then false else keyLe ys xs) = true
              rw [if_neg (by omega), if_neg (by omega)]
              exact h2
          · refine Or.inr ?_
            show (if y.toNat < x.toNat then true
              else if x.toNat < y.toNat then false else keyLe ys xs) = true
            rw [if_pos h]

/-- The association list is sorted by key (the shape `sorted(d.items())`
produces). -/
def kvSorted {α : Type} : List (List Char × α) → Bool
  | [] => true
  | [_] => true
  | a :: b :: r => keyLe a.1 b.1 && kvSorted (b :: r)

theorem kvSorted_tail {α : Type} (a : List Char × α) (t : List (List Char × α))
    (h : kvSorted (a :: t) = true) : kvSorted t = true := by
  cases t with
  | nil => rfl
  | cons b s =>
      have h2 : (keyLe a.1 b.1 && kvSorted (b :: s)) = true := h
      simp only [Bool.and_eq_true] at h2
      exact h2.2

theorem insPair_sorted {α : Type} (p : List Char × α) :
    ∀ l : List (List Char × α), kvSorted l = true → kvSorted (insPair p l) = true := by
  intro l
  induction l with
  | nil => intro _; rfl
  | cons q t ih =>
      intro h
      show kvSorted (if keyLe p.1 q.1 then p :: q :: t else q :: insPair p t) = true
      split
      next hpq =>
        show (keyLe p.1 q.1 && kvSorted (q :: t)) = true
        rw [hpq, h]
        rfl
      next hpq =>
        have hqp : keyLe q.1 p.1 = true := by
          rcases keyLe_total p.1 q.1 with h1 | h1
          · exact absurd h1 hpq
          · exact h1
        cases t with
        | nil =>
            show (keyLe q.1 p.1 && kvSorted [p]) = true
            rw [hqp]
            rfl
        | cons w s =>
            have h2 : (keyLe q.1 w.1 && kvSorted (w :: s)) = true := h
            simp only [Bool.and_eq_true] at h2
            have hqw := h2.1
            have hws := h2.2
            show kvSorted (q :: (if keyLe p.1 w.1 then p :: w :: s
              else w :: insPair p s)) = true
            split
            next hpw =>
              show (keyLe q.1 p.1 && kvSorted (p :: w :: s)) = true
              have h3 : kvSorted (p :: w :: s) = true := by
                show (keyLe p.1 w.1 && kvSorted (w :: s)) = true
                rw [hpw, hws]
                rfl
              rw [hqp, h3]
              rfl
            next hpw =>
              show (keyLe q.1 w.1 && kvSorted (w :: insPair p s)) = true
              have h4 : kvSorted (w :: insPair p s) = true := by
                have h5 : insPair p (w :: s) = w :: insPair p s := by
                  show (if keyLe p.1 w.1 then p :: w :: s else w :: insPair p s) = _
                  rw [if_neg hpw]
                rw [← h5]
                exact ih hws
              rw [hqw, h4]
              rfl

theorem sortPairs_sorted {α : Type} (l : List (List Char × α)) :
    kvSorted (sortPairs l) = true := by
  induction l with
  | nil => rfl
  | cons a t ih => exact insPair_sorted a (sortPairs t) ih

theorem sortPairs_of_sorted {α : Type} :
    ∀ l : List (List Char × α), kvSorted l = true → sortPairs l = l := by
  intro l
  induction l with
  | nil => intro _; rfl
  | cons a t ih =>
      intro h
      rw [sortPairs_cons, ih (kvSorted_tail a t h)]
      cases t with
      | nil => rfl
      | cons b s =>
          have h2 : (keyLe a.1 b.1 && kvSorted (b :: s)) = true := h
          simp only [Bool.and_eq_true] at h2
          show (if keyLe a.1 b.1 then a :: b :: s else b :: insPair a s) = _
          rw [if_pos h2.1]

theorem canonL_eq_map (xs : List PyVal) : canonL xs = xs.map canonV := by
  induction xs with
  | nil => rfl
  | cons a r ih => simp only [canonL, List.map_cons, ih]

theorem canonV_canonV : ∀ (N : Nat) (v : PyVal), sizeOf v < N →
    canonV (canonV v) = canonV v := by
  intro N
  induction N with
  | zero => intro v h; omega
  | succ N IH =>
      intro v hsize
      cases v with
      | null => rfl
      | pbool b => rfl
      | pint n => rfl
      | pstr s => rfl
      | other => rfl
      | plist xs =>
          show PyVal.plist (canonL (canonL xs)) = PyVal.plist (canonL xs)
          congr 1
          rw [canonL_eq_map, canonL_eq_map, List.map_map]
          apply List.map_congr_left
          intro y hy
          have hsz : sizeOf y < N := by
            have h1 := List.sizeOf_lt_of_mem hy
            have h2 : sizeOf (PyVal.plist xs) = 1 + sizeOf xs := by simp
            omega
          exact IH y hsz
      | pdict kvs =>
          show PyVal.pdict (sortPairs (canonKV (sortPairs (canonKV kvs)))) =
            PyVal.pdict (sortPairs (canonKV kvs))
          congr 1
          rw [canonKV_sortPairs]
          have hKK : canonKV (canonKV kvs) = canonKV kvs := by
            rw [canonKV_eq_map, canonKV_eq_map, List.map_map]
            apply List.map_congr_left
            intro q hq
            show (q.1, canonV (canonV q.2)) = (q.1, canonV q.2)
            have hsz : sizeOf q.2 < N := by
              have h1 := List.sizeOf_lt_of_mem hq
              have h2 : sizeOf (PyVal.pdict kvs) = 1 + sizeOf kvs := by simp
              obtain ⟨qk, qv⟩ := q
              have h3 : sizeOf ((qk, qv) : List Char × PyVal) =
                  1 + sizeOf qk + sizeOf qv := by simp
              simp only at h1 ⊢
              omega
            rw [IH q.2 hsz]
          rw [hKK]
          exact sortPairs_of_sorted _ (sortPairs_sorted _)

/-- Equality of Python documents (`==`): dictionaries compare as key-value
mappings irrespective of entry order, so two documents are equal exactly when
their canonical forms coincide. -/
def pyEq (a b : PyVal) : Prop := canonV a = canonV b

theorem pyEq_canonV_left (v : PyVal) : pyEq (canonV v) v :=
  canonV_canonV (sizeOf v + 1) v (by omega)

/-- `k` does not occur as a key of `l`. -/
def keyFresh (k : List Char) : List (List Char × PyVal) → Bool
  | [] => true
  | (k2, _) :: r => if k2 = k then false else keyFresh k r

/-- The keys of `l` are pairwise distinct. -/
def distinctKeys : List (List Char × PyVal) → Bool
  | [] => true
  | (k, _) :: r => keyFresh k r && distinctKeys r

mutual

/-- `v` denotes a Python document: every dictionary inside it has pairwise
distinct keys (a Python dict cannot hold the same key twice). -/
def wellKeyed : PyVal → Bool
  | .plist xs => wellKeyedL xs
  | .pdict kvs => distinctKeys kvs && wellKeyedKV kvs
  | _ => true

def wellKeyedL : List PyVal → Bool
  | [] => true
  | x :: xs => wellKeyed x && wellKeyedL xs

def wellKeyedKV : List (List Char × PyVal) → Bool
  | [] => true
  | (_, v) :: r => wellKeyed v && wellKeyedKV r

end

/-! ## ECIES layer

`p2p.ecies` (imported at line 10 of the source) is not part of this
repository, so this layer is modelled from the spec: ECIES with an ephemeral
key pair, a shared secret obtained by Diffie-Hellman between the ephemeral
key and the recipient key, a symmetric cipher keyed from that secret for the
body, and a MAC over the shared MAC data and the body whose verification
failure is `DecryptionError`. Scalars stand for keys; the Diffie-Hellman
product models the shared point. -/

/-- Modelled from the spec: the public key derived from a private scalar
(scalar multiplication of the base point, injective for valid scalars;
symbolically the scalar itself). -/
def pubOf (priv : Nat) : Nat := priv

/-- Modelled from the spec: the symmetric-cipher key derived from the shared
secret. -/
def encKeyOf (s : Nat) : Nat := 2 * s

/-- Modelled from the spec: the MAC key derived from the shared secret
(distinct from the cipher key). -/
def macKeyOf (s : Nat) : Nat := 2 * s + 1

/-- Modelled from the spec: the symmetric body cipher, a keystream XOR. -/
def symXor (k : Nat) (m : List Nat) : List Nat := m.map (fun x => Nat.xor x k)

/-- Modelled from the spec: an ECIES ciphertext — the ephemeral public key,
the encrypted body, and the MAC tag, recorded as the MAC key it was keyed
with together with the authenticated data (shared MAC data followed by the
encrypted body). -/
structure Ctxt where
  ephPub : Nat
  body : List Nat
  tagKey : Nat
  tagData : List Nat
deriving DecidableEq, Repr

/-- Modelled from the spec: `ecies.encrypt(m, pub, shared_mac_data=mac)`
with ephemeral scalar `r` standing for the randomness drawn inside. -/
def eciesEncrypt (pub : Nat) (r : Nat) (mac : List Nat) (m : List Nat) : Ctxt :=
  { ephPub := r
    body := symXor (encKeyOf (r * pub)) m
    tagKey := macKeyOf (r * pub)
    tagData := mac ++ symXor (encKeyOf (r * pub)) m }

/-- Modelled from the spec: `ecies.decrypt(c, priv, shared_mac_data=mac)` —
recompute the shared secret from the ephemeral public key, verify the MAC
tag, and decrypt the body; `none` is `DecryptionError` (tag verification
failure). -/
def eciesDecrypt (priv : Nat) (mac : List Nat) (c : Ctxt) : Option (List Nat) :=
  if c.tagKey = macKeyOf (c.ephPub * priv) ∧ c.tagData = mac ++ c.body then
    some (symXor (encKeyOf (c.ephPub * priv)) c.body)
  else
    none

theorem symXor_symXor (k : Nat) (m : List Nat) : symXor k (symXor k m) = m := by
  unfold symXor
  rw [List.map_map]
  have h : ∀ x ∈ m, Nat.xor (Nat.xor x k) k = x := by
    intro x _
    exact Nat.xor_cancel_right k x
  calc (List.map (fun x => Nat.xor (Nat.xor x k) k) m) = List.map id m :=
        List.map_congr_left h
    _ = m := List.map_id m

/-- Decryption with the matching private scalar inverts encryption. -/
theorem eciesDecrypt_eciesEncrypt (b r : Nat) (mac m : List Nat) :
    eciesDecrypt b mac (eciesEncrypt (pubOf b) r mac m) = some m := by
  unfold eciesDecrypt eciesEncrypt pubOf
  rw [if_pos ⟨rfl, rfl⟩]
  rw [symXor_symXor]

/-- `SHARED_MAC_DATA` (storage.py lines 16-18): the default shared MAC bytes,
the ASCII bytes of the literal. -/
def SHARED_MAC_DATA : List Nat :=
  strBytes ("9da0d3721774843193737244a0f3355191f66ff7321e83eae83f7f746eb34350".toList)

/-- `_encrypt(public_key, msg)` (storage.py lines 211-230): UTF-8-encode the
message and ECIES-encrypt it under the shared MAC data; `r` stands for the
ephemeral randomness `ecies.encrypt` draws. -/
def encryptMsg (public_key : Nat) (r : Nat) (msg : List Char) : Ctxt :=
  eciesEncrypt public_key r SHARED_MAC_DATA (strBytes msg)

/-- `_decrypt(private_key, msg)` (storage.py lines 183-208): ECIES-decrypt
under the shared MAC data and UTF-8-decode the plaintext (`none` is the
raised `DecryptionError`). -/
def decryptMsg (private_key : Nat) (c : Ctxt) : Option (List Char) :=
  (eciesDecrypt private_key SHARED_MAC_DATA c).map decodeAscii

theorem decryptMsg_encryptMsg (b r : Nat) (msg : List Char) :
    decryptMsg b (encryptMsg (pubOf b) r msg) = some msg := by
  unfold decryptMsg encryptMsg
  rw [eciesDecrypt_eciesEncrypt]
  show some (decodeAscii (strBytes msg)) = some msg
  rw [decodeAscii_strBytes]

/-! ## The upload / download gateway

`upload` and `download` call four external services (IPFS connect and
`add_bytes`, S3 connect and `put_object`/`get_object`). The environment
record fixes the outcome of each such call and the randomness of the one
encryption, so the two functions become deterministic; the stores are
association lists from backend key to stored ciphertext. Exceptions are
values of `PyErr`; a raised exception is an `Except.error`. -/

/-- Outcomes of the external calls during one upload or download: whether
each backend call succeeds, whether encryption succeeds, the ephemeral
scalar the encryption draws, and the key IPFS assigns on a successful
`add_bytes`. -/
structure Env where
  connectIpfsOk : Bool
  connectS3Ok : Bool
  encOk : Bool
  addIpfsOk : Bool
  putS3Ok : Bool
  eph : Nat
  ipfsKey : List Char
deriving DecidableEq, Repr

/-- The two backends' contents: association lists from backend key to
ciphertext, most recent entry first. -/
structure Stores where
  s3Store : List (List Char × Ctxt)
  ipfsStore : List (List Char × Ctxt)
deriving DecidableEq, Repr

def findKey (l : List (List Char × Ctxt)) (k : List Char) : Option Ctxt :=
  match l with
  | [] => none
  | (k2, c) :: r => if k2 = k then some c else findKey r k

/-- The exceptions the gateway raises (each standing for the Python
exception raised at the cited line of storage.py). -/
inductive PyErr where
  | serError      -- json.dumps raised (lines 149-153)
  | connError     -- _connect or _connect_s3 raised (lines 35-55)
  | encError      -- _encrypt raised (lines 160, 171)
  | addError      -- IPFS add_bytes raised (line 161)
  | getError      -- cat / get_object raised, e.g. missing key (lines 93, 105)
  | decryptError  -- _decrypt raised DecryptionError (lines 94, 107)
  | jsonError     -- json.loads raised (lines 100, 113)
deriving DecidableEq, Repr

/-- `upload(msg, public_key, s3=True)` (storage.py lines 116-180): the
result the call returns or the exception it raises, together with the
backend stores after the call. Lines 149-153 re-raise a serialization
failure; line 155 computes the content hash; lines 157-167 (IPFS branch)
re-raise every failure of the try block; lines 169-180 (S3 branch) catch
every failure of the try block, log it, and fall through to
`return hash_, hash_` (line 180). -/
def uploadR (env : Env) (st : Stores) (msg : PyVal) (public_key : Nat)
    (s3 : Bool := true) : Except PyErr (List Char × List Char) × Stores :=
  if serializable msg = false then (.error .serError, st) else
  let manifest_ := dumpV msg
  let hash_ := sha1Hex (strBytes manifest_)
  if s3 = false then
    if env.connectIpfsOk = false then (.error .connError, st) else
    if env.encOk = false then (.error .encError, st) else
    let encrypted_msg := encryptMsg public_key env.eph manifest_
    if env.addIpfsOk = false then (.error .addError, st) else
    (.ok (hash_, env.ipfsKey),
      { st with ipfsStore := (env.ipfsKey, encrypted_msg) :: st.ipfsStore })
  else
    if env.connectS3Ok = false then (.ok (hash_, hash_), st) else
    if env.encOk = false then (.ok (hash_, hash_), st) else
    let encrypted_msg := encryptMsg public_key env.eph manifest_
    if env.putS3Ok = false then (.ok (hash_, hash_), st) else
    (.ok (hash_, hash_),
      { st with s3Store := (hash_, encrypted_msg) :: st.s3Store })

/-- `download(key, private_key, s3=True)` (storage.py lines 58-113): the
document the call returns or the exception it raises (the stores are not
changed by a download). Both branches re-raise every failure. -/
def downloadR (env : Env) (st : Stores) (key : List Char) (private_key : Nat)
    (s3 : Bool := true) : Except PyErr PyVal :=
  if s3 = false then
    if env.connectIpfsOk = false then .error .connError else
    match findKey st.ipfsStore key with
    | none => .error .getError
    | some ciphertext =>
        match decryptMsg private_key ciphertext with
        | none => .error .decryptError
        | some msg =>
            match loadsJson msg with
            | none => .error .jsonError
            | some v => .ok v
  else
    if env.connectS3Ok = false then .error .connError else
    match findKey st.s3Store key with
    | none => .error .getError
    | some ciphertext =>
        match decryptMsg private_key ciphertext with
        | none => .error .decryptError
        | some msg =>
            match loadsJson msg with
            | none => .error .jsonError
            | some v => .ok v

theorem findKey_cons_self (k : List Char) (c : Ctxt)
    (r : List (List Char × Ctxt)) : findKey ((k, c) :: r) k = some c := by
  unfold findKey
  rw [if_pos rfl]

theorem up_s3_ok (env : Env) (st : Stores) (msg : PyVal) (pub : Nat)
    (hser : serializable msg = true) (hc : env.connectS3Ok = true)
    (he : env.encOk = true) (hp : env.putS3Ok = true) :
    uploadR env st msg pub true =
      (.ok (contentId msg, contentId msg),
       { st with s3Store :=
           (contentId msg, encryptMsg pub env.eph (dumpV msg)) :: st.s3Store }) := by
  simp [uploadR, contentId, hser, hc, he, hp]

theorem up_s3_swallow (env : Env) (st : Stores) (msg : PyVal) (pub : Nat)
    (hser : serializable msg = true)
    (hfail : env.connectS3Ok = false ∨ env.encOk = false ∨ env.putS3Ok = false) :
    uploadR env st msg pub true = (.ok (contentId msg, contentId msg), st) := by
  rcases hfail with h | h | h
  · simp [uploadR, contentId, hser, h]
  · cases hcs : env.connectS3Ok with
    | false => simp [uploadR, contentId, hser, hcs]
    | true => simp [uploadR, contentId, hser, hcs, h]
  · cases hcs : env.connectS3Ok with
    | false => simp [uploadR, contentId, hser, hcs]
    | true =>
        cases hec : env.encOk with
        | false => simp [uploadR, contentId, hser, hcs, hec]
        | true => simp [uploadR, contentId, hser, hcs, hec, h]

theorem up_ipfs_ok (env : Env) (st : Stores) (msg : PyVal) (pub : Nat)
    (hser : serializable msg = true) (hci : env.connectIpfsOk = true)
    (he : env.encOk = true) (ha : env.addIpfsOk = true) :
    uploadR env st msg pub false =
      (.ok (contentId msg, env.ipfsKey),
       { st with ipfsStore :=
           (env.ipfsKey, encryptMsg pub env.eph (dumpV msg)) :: st.ipfsStore }) := by
  simp [uploadR, contentId, hser, hci, he, ha]

theorem down_s3_roundtrip (env : Env) (st : Stores) (msg : PyVal) (b : Nat)
    (hser : serializable msg = true) (hc : env.connectS3Ok = true) :
    downloadR env
      { st with s3Store :=
          (contentId msg, encryptMsg (pubOf b) env.eph (dumpV msg)) :: st.s3Store }
      (contentId msg) b true = .ok (canonV msg) := by
  have h1 : findKey
      ((contentId msg, encryptMsg (pubOf b) env.eph (dumpV msg)) :: st.s3Store)
      (contentId msg) = some (encryptMsg (pubOf b) env.eph (dumpV msg)) :=
    findKey_cons_self _ _ _
  simp [downloadR, hc, h1, decryptMsg_encryptMsg, loads_dumpV msg hser]

theorem down_ipfs_roundtrip (env : Env) (st : Stores) (msg : PyVal) (b : Nat)
    (key : List Char) (hser : serializable msg = true)
    (hc : env.connectIpfsOk = true) :
    downloadR env
      { st with ipfsStore :=
          (key, encryptMsg (pubOf b) env.eph (dumpV msg)) :: st.ipfsStore }
      key b false = .ok (canonV msg) := by
  have h1 : findKey
      ((key, encryptMsg (pubOf b) env.eph (dumpV msg)) :: st.ipfsStore)
      key = some (encryptMsg (pubOf b) env.eph (dumpV msg)) :=
    findKey_cons_self _ _ _
  simp [downloadR, hc, h1, decryptMsg_encryptMsg, loads_dumpV msg hser]

theorem uploadR_ok_fst (env : Env) (st : Stores) (msg : PyVal) (pub : Nat)
    (s3f : Bool) (p : List Char × List Char) (st2 : Stores)
    (h : uploadR env st msg pub s3f = (.ok p, st2)) : p.1 = contentId msg := by
  simp only [uploadR] at h
  repeat' split at h
  all_goals
    first
    | (have h2 := congrArg Prod.fst h
       simp only [Except.ok.injEq] at h2
       rw [← h2]
       rfl)
    | (exact absurd (congrArg Prod.fst h) (by simp))

/-! ## The claims -/

/-- C1: for every serializable, well-keyed document and matching key pair
(public key derived from the private scalar), decrypting the encryption of
the serialization yields the serialization back, and download after upload
returns a document equal, as a Python document, to the original — for both
the S3 and the IPFS backend (encryption layer modelled from the spec). The
`wellKeyed` hypothesis restricts to documents a Python dict can denote
(pairwise-distinct keys), on which `pyEq` is Python `==`. -/
theorem C1_roundtrip (msg : PyVal) (b : Nat) (env : Env) (st : Stores)
    (hser : serializable msg = true) (hwk : wellKeyed msg = true)
    (hipfs : env.connectIpfsOk = true) (hs3 : env.connectS3Ok = true)
    (henc : env.encOk = true) (hadd : env.addIpfsOk = true)
    (hput : env.putS3Ok = true) :
    decryptMsg b (encryptMsg (pubOf b) env.eph (dumpV msg)) = some (dumpV msg) ∧
    (∃ st2, uploadR env st msg (pubOf b) true =
        (.ok (contentId msg, contentId msg), st2) ∧
      ∃ d, downloadR env st2 (contentId msg) b true = .ok d ∧ pyEq d msg) ∧
    (∃ st2, uploadR env st msg (pubOf b) false =
        (.ok (contentId msg, env.ipfsKey), st2) ∧
      ∃ d, downloadR env st2 env.ipfsKey b false = .ok d ∧ pyEq d msg) := by
  refine ⟨decryptMsg_encryptMsg b env.eph (dumpV msg),
    ⟨_, up_s3_ok env st msg (pubOf b) hser hs3 henc hput,
     canonV msg, down_s3_roundtrip env st msg b hser hs3, pyEq_canonV_left msg⟩,
    ⟨_, up_ipfs_ok env st msg (pubOf b) hser hipfs henc hadd,
     canonV msg, down_ipfs_roundtrip env st msg b env.ipfsKey hser hipfs,
     pyEq_canonV_left msg⟩⟩

theorem C1_roundtrip_witness :
    serializable (PyVal.pdict [(['a'], PyVal.pint 1)]) = true ∧
    wellKeyed (PyVal.pdict [(['a'], PyVal.pint 1)]) = true ∧
    (decryptMsg 5 (encryptMsg (pubOf 5) 7
        (dumpV (PyVal.pdict [(['a'], PyVal.pint 1)]))) =
      some (dumpV (PyVal.pdict [(['a'], PyVal.pint 1)])) ∧
    (∃ st2, uploadR ⟨true, true, true, true, true, 7, ['k']⟩ ⟨[], []⟩
          (PyVal.pdict [(['a'], PyVal.pint 1)]) (pubOf 5) true =
        (.ok (contentId (PyVal.pdict [(['a'], PyVal.pint 1)]),
              contentId (PyVal.pdict [(['a'], PyVal.pint 1)])), st2) ∧
      ∃ d, downloadR ⟨true, true, true, true, true, 7, ['k']⟩ st2
          (contentId (PyVal.pdict [(['a'], PyVal.pint 1)])) 5 true = .ok d ∧
        pyEq d (PyVal.pdict [(['a'], PyVal.pint 1)])) ∧
    (∃ st2, uploadR ⟨true, true, true, true, true, 7, ['k']⟩ ⟨[], []⟩
          (PyVal.pdict [(['a'], PyVal.pint 1)]) (pubOf 5) false =
        (.ok (contentId (PyVal.pdict [(['a'], PyVal.pint 1)]), ['k']), st2) ∧
      ∃ d, downloadR ⟨true, true, true, true, true, 7, ['k']⟩ st2 ['k'] 5 false =
          .ok d ∧
        pyEq d (PyVal.pdict [(['a'], PyVal.pint 1)]))) :=
  ⟨rfl, rfl,
   C1_roundtrip (PyVal.pdict [(['a'], PyVal.pint 1)]) 5
     ⟨true, true, true, true, true, 7, ['k']⟩ ⟨[], []⟩ rfl rfl rfl rfl rfl rfl rfl⟩

/-- C2: counterexample — with the S3 `put_object` failing (and nothing
else), `upload(msg, pub)` still returns normally: lines 176-180 of the
source catch the exception, log it, and fall through to
`return hash_, hash_`. The claim that such an upload "does not return
normally" is false. -/
theorem C2_counterexample :
    ∃ p st2, uploadR ⟨true, true, true, true, false, 7, []⟩ ⟨[], []⟩
        (PyVal.pdict [(['a'], PyVal.pint 1)]) 5 true = (.ok p, st2) :=
  ⟨_, _, up_s3_swallow ⟨true, true, true, true, false, 7, []⟩ ⟨[], []⟩
    (PyVal.pdict [(['a'], PyVal.pint 1)]) 5 rfl (Or.inr (Or.inr rfl))⟩

/-- C2 (amended): serialization failures are raised on both upload branches;
every failure in the IPFS upload branch is raised; download raises
connection, missing-key and decryption failures on both of its branches
(S3 and IPFS alike); but in the S3 upload branch
a connection, encryption or put failure is swallowed — the call logs and
returns `(hash_, hash_)` normally, the store unchanged. -/
theorem C2_amended (env : Env) (st : Stores) (msg : PyVal) (pub : Nat)
    (key : List Char) (b : Nat) :
    (serializable msg = false → ∀ s3f : Bool,
      uploadR env st msg pub s3f = (.error .serError, st)) ∧
    (serializable msg = true → env.connectIpfsOk = false →
      uploadR env st msg pub false = (.error .connError, st)) ∧
    (serializable msg = true → env.connectIpfsOk = true → env.encOk = false →
      uploadR env st msg pub false = (.error .encError, st)) ∧
    (serializable msg = true → env.connectIpfsOk = true → env.encOk = true →
      env.addIpfsOk = false →
      uploadR env st msg pub false = (.error .addError, st)) ∧
    (env.connectS3Ok = false → downloadR env st key b true = .error .connError) ∧
    (env.connectS3Ok = true → findKey st.s3Store key = none →
      downloadR env st key b true = .error .getError) ∧
    (env.connectS3Ok = true → ∀ c, findKey st.s3Store key = some c →
      decryptMsg b c = none → downloadR env st key b true = .error .decryptError) ∧
    (env.connectIpfsOk = false → downloadR env st key b false = .error .connError) ∧
    (env.connectIpfsOk = true → findKey st.ipfsStore key = none →
      downloadR env st key b false = .error .getError) ∧
    (env.connectIpfsOk = true → ∀ c, findKey st.ipfsStore key = some c →
      decryptMsg b c = none → downloadR env st key b false = .error .decryptError) ∧
    (serializable msg = true →
      (env.connectS3Ok = false ∨ env.encOk = false ∨ env.putS3Ok = false) →
      uploadR env st msg pub true = (.ok (contentId msg, contentId msg), st)) := by
  refine ⟨?_, ?_, ?_, ?_, ?_, ?_, ?_, ?_, ?_, ?_, ?_⟩
  · intro hser s3f
    simp [uploadR, hser]
  · intro hser hci
    simp [uploadR, hser, hci]
  · intro hser hci he
    simp [uploadR, hser, hci, he]
  · intro hser hci he ha
    simp [uploadR, hser, hci, he, ha]
  · intro hcs
    simp [downloadR, hcs]
  · intro hcs hf
    simp [downloadR, hcs, hf]
  · intro hcs c hf hd
    simp [downloadR, hcs, hf, hd]
  · intro hci
    simp [downloadR, hci]
  · intro hci hf
    simp [downloadR, hci, hf]
  · intro hci c hf hd
    simp [downloadR, hci, hf, hd]
  · intro hser hfail
    exact up_s3_swallow env st msg pub hser hfail

/-- C3: with the object-store backend, connection and encryption succeeding
and the put failing, upload still returns the Content Identifier exactly as
computed — the very pair a fully successful call returns. -/
theorem C3_cid_despite_put_failure (env env2 : Env) (st st2 : Stores)
    (msg : PyVal) (pub pub2 : Nat) (hser : serializable msg = true)
    (hc : env.connectS3Ok = true) (he : env.encOk = true)
    (hp : env.putS3Ok = false) (hc2 : env2.connectS3Ok = true)
    (he2 : env2.encOk = true) (hp2 : env2.putS3Ok = true) :
    uploadR env st msg pub true = (.ok (contentId msg, contentId msg), st) ∧
    (uploadR env2 st2 msg pub2 true).1 = .ok (contentId msg, contentId msg) := by
  constructor
  · exact up_s3_swallow env st msg pub hser (Or.inr (Or.inr hp))
  · rw [up_s3_ok env2 st2 msg pub2 hser hc2 he2 hp2]

theorem C3_cid_despite_put_failure_witness :
    serializable (PyVal.pstr ['h', 'i']) = true ∧
    (uploadR ⟨true, true, true, true, false, 7, []⟩ ⟨[], []⟩
        (PyVal.pstr ['h', 'i']) 5 true =
      (.ok (contentId (PyVal.pstr ['h', 'i']), contentId (PyVal.pstr ['h', 'i'])),
       ⟨[], []⟩) ∧
    (uploadR ⟨true, true, true, true, true, 7, []⟩ ⟨[], []⟩
        (PyVal.pstr ['h', 'i']) 5 true).1 =
      .ok (contentId (PyVal.pstr ['h', 'i']), contentId (PyVal.pstr ['h', 'i']))) :=
  ⟨rfl, C3_cid_despite_put_failure ⟨true, true, true, true, false, 7, []⟩
    ⟨true, true, true, true, true, 7, []⟩ ⟨[], []⟩ ⟨[], []⟩
    (PyVal.pstr ['h', 'i']) 5 5 rfl rfl rfl rfl rfl rfl rfl⟩

/-- C4: the Content Identifier is 40 lowercase hexadecimal characters (the
SHA-1 hex digest of the UTF-8 bytes of the sorted-keys serialization), and
any upload call that returns at all returns it as the first component —
whatever the recipient key, the backend flag, the environment or the store:
it depends on the document alone, so repeated calls agree. -/
theorem C4_contentId_stable (msg : PyVal) :
    (contentId msg).length = 40 ∧
    (∀ c ∈ contentId msg, c ∈ hexAlphabet) ∧
    (∀ env st pub s3f p st2, uploadR env st msg pub s3f = (.ok p, st2) →
      p.1 = contentId msg) := by
  refine ⟨sha1Hex_length _, sha1Hex_mem _, ?_⟩
  intro env st pub s3f p st2 h
  exact uploadR_ok_fst env st msg pub s3f p st2 h

/-- C5: with the object-store backend and every call succeeding, upload puts
the ciphertext into the store under the Content Identifier as key, and
returns the pair both of whose components are that Content Identifier. -/
theorem C5_backend_key_is_cid (env : Env) (st : Stores) (msg : PyVal)
    (pub : Nat) (hser : serializable msg = true) (hc : env.connectS3Ok = true)
    (he : env.encOk = true) (hp : env.putS3Ok = true) :
    uploadR env st msg pub true =
      (.ok (contentId msg, contentId msg),
       { st with s3Store :=
           (contentId msg, encryptMsg pub env.eph (dumpV msg)) :: st.s3Store }) :=
  up_s3_ok env st msg pub hser hc he hp

theorem C5_backend_key_is_cid_witness :
    serializable (PyVal.pstr ['o', 'k']) = true ∧
    uploadR ⟨true, true, true, true, true, 7, []⟩ ⟨[], []⟩
        (PyVal.pstr ['o', 'k']) 5 true =
      (.ok (contentId (PyVal.pstr ['o', 'k']), contentId (PyVal.pstr ['o', 'k'])),
       ⟨[(contentId (PyVal.pstr ['o', 'k']),
          encryptMsg 5 7 (dumpV (PyVal.pstr ['o', 'k'])))], []⟩) :=
  ⟨rfl, C5_backend_key_is_cid ⟨true, true, true, true, true, 7, []⟩ ⟨[], []⟩
    (PyVal.pstr ['o', 'k']) 5 rfl rfl rfl rfl⟩

/-- C6 (encryption layer modelled from the spec): decryption fails with
`DecryptionError` (`none`) — never returning plaintext — when the
ciphertext was encrypted for a public key not matching the presented private
scalar, when the shared MAC data differs from the one used at encryption,
or when the ciphertext body was corrupted. -/
theorem C6_decryption_error (b b2 r : Nat) (mac mac2 m body2 : List Nat)
    (hr : 1 ≤ r) (hb : b2 ≠ b) (hmac : mac2 ≠ mac)
    (hbody : body2 ≠ (eciesEncrypt (pubOf b) r mac m).body) :
    eciesDecrypt b2 mac (eciesEncrypt (pubOf b) r mac m) = none ∧
    eciesDecrypt b mac2 (eciesEncrypt (pubOf b) r mac m) = none ∧
    eciesDecrypt b mac
      { eciesEncrypt (pubOf b) r mac m with body := body2 } = none := by
  refine ⟨?_, ?_, ?_⟩
  · simp only [eciesDecrypt]
    split
    next hcond =>
      exfalso
      have h2 : 2 * (r * b) + 1 = 2 * (r * b2) + 1 := hcond.1
      have h3 : r * b = r * b2 := by omega
      have h4 : b = b2 := Nat.eq_of_mul_eq_mul_left (by omega) h3
      exact hb h4.symm
    next => rfl
  · simp only [eciesDecrypt]
    split
    next hcond =>
      exfalso
      have h2 : mac ++ symXor (encKeyOf (r * pubOf b)) m =
          mac2 ++ symXor (encKeyOf (r * pubOf b)) m := hcond.2
      exact hmac (List.append_cancel_right h2).symm
    next => rfl
  · simp only [eciesDecrypt]
    split
    next hcond =>
      exfalso
      have h2 : mac ++ symXor (encKeyOf (r * pubOf b)) m = mac ++ body2 :=
        hcond.2
      exact hbody (List.append_cancel_left h2).symm
    next => rfl

theorem C6_decryption_error_witness :
    1 ≤ 1 ∧ (4 : Nat) ≠ 3 ∧ ([2] : List Nat) ≠ [1] ∧
    ([0] : List Nat) ≠ (eciesEncrypt (pubOf 3) 1 [1] [9]).body ∧
    (eciesDecrypt 4 [1] (eciesEncrypt (pubOf 3) 1 [1] [9]) = none ∧
    eciesDecrypt 3 [2] (eciesEncrypt (pubOf 3) 1 [1] [9]) = none ∧
    eciesDecrypt 3 [1] { eciesEncrypt (pubOf 3) 1 [1] [9] with body := [0] } =
      none) :=
  ⟨by decide, by decide, by decide, by decide,
   C6_decryption_error 3 4 1 [1] [2] [9] [0] (by decide) (by decide) (by decide)
     (by decide)⟩

/-- C7: with the distributed content-store backend, a connection failure or
a failed `add_bytes` makes upload raise, the stores unchanged and no backend
key returned; and an object-store download of a key the store does not hold
raises an I/O error instead of returning. -/
theorem C7_backend_failure_isolation (env : Env) (st : Stores) (msg : PyVal)
    (pub : Nat) (key : List Char) (b : Nat)
    (hser : serializable msg = true) :
    (env.connectIpfsOk = false →
      uploadR env st msg pub false = (.error .connError, st)) ∧
    (env.connectIpfsOk = true → env.encOk = true → env.addIpfsOk = false →
      uploadR env st msg pub false = (.error .addError, st)) ∧
    (env.connectS3Ok = true → findKey st.s3Store key = none →
      downloadR env st key b true = .error .getError) := by
  refine ⟨?_, ?_, ?_⟩
  · intro hci
    simp [uploadR, hser, hci]
  · intro hci he ha
    simp [uploadR, hser, hci, he, ha]
  · intro hcs hf
    simp [downloadR, hcs, hf]

theorem C7_backend_failure_isolation_witness :
    serializable (PyVal.pbool true) = true ∧
    ((Env.connectIpfsOk ⟨false, true, true, true, true, 0, []⟩ = false →
      uploadR ⟨false, true, true, true, true, 0, []⟩ ⟨[], []⟩
        (PyVal.pbool true) 5 false =
          (.error .connError, (⟨[], []⟩ : Stores))) ∧
    (Env.connectIpfsOk ⟨false, true, true, true, true, 0, []⟩ = true →
      Env.encOk ⟨false, true, true, true, true, 0, []⟩ = true →
      Env.addIpfsOk ⟨false, true, true, true, true, 0, []⟩ = false →
      uploadR ⟨false, true, true, true, true, 0, []⟩ ⟨[], []⟩
        (PyVal.pbool true) 5 false =
          (.error .addError, (⟨[], []⟩ : Stores))) ∧
    (Env.connectS3Ok ⟨false, true, true, true, true, 0, []⟩ = true →
      findKey (Stores.s3Store ⟨[], []⟩) ['x'] = none →
      downloadR ⟨false, true, true, true, true, 0, []⟩ ⟨[], []⟩ ['x'] 3 true =
        .error .getError)) :=
  ⟨rfl, C7_backend_failure_isolation ⟨false, true, true, true, true, 0, []⟩
    ⟨[], []⟩ (PyVal.pbool true) 5 ['x'] 3 rfl⟩

/-- C8 (encryption layer modelled from the spec): encryption is randomized —
two calls on the same plaintext for the same recipient with distinct
ephemeral randomness produce different ciphertexts, and decryption with the
matching private scalar maps both back to the same plaintext. -/
theorem C8_randomized_encryption (b r1 r2 : Nat) (m : List Char)
    (hne : r1 ≠ r2) :
    encryptMsg (pubOf b) r1 m ≠ encryptMsg (pubOf b) r2 m ∧
    decryptMsg b (encryptMsg (pubOf b) r1 m) = some m ∧
    decryptMsg b (encryptMsg (pubOf b) r2 m) = some m := by
  refine ⟨?_, decryptMsg_encryptMsg b r1 m, decryptMsg_encryptMsg b r2 m⟩
  intro h
  exact hne (congrArg Ctxt.ephPub h)

theorem C8_randomized_encryption_witness :
    (1 : Nat) ≠ 2 ∧
    (encryptMsg (pubOf 3) 1 ['h'] ≠ encryptMsg (pubOf 3) 2 ['h'] ∧
    decryptMsg 3 (encryptMsg (pubOf 3) 1 ['h']) = some ['h'] ∧
    decryptMsg 3 (encryptMsg (pubOf 3) 2 ['h']) = some ['h']) :=
  ⟨by decide, C8_randomized_encryption 3 1 2 ['h'] (by decide)⟩

/-- C9: the backend flag of both upload and download defaults to the
object-store backend — a call without the flag is the `s3 = true` call. -/
theorem C9_default_is_s3 (env : Env) (st : Stores) (msg : PyVal) (pub : Nat)
    (key : List Char) (b : Nat) :
    uploadR env st msg pub = uploadR env st msg pub true ∧
    downloadR env st key b = downloadR env st key b true :=
  ⟨rfl, rfl⟩

/-- C10: a document `json.dumps` cannot serialize makes upload raise at once
(lines 149-153), for either backend choice: the stores are returned
untouched — no hash was computed, nothing encrypted, no backend
contacted — and no identifier is produced. -/
theorem C10_serialize_failure_aborts (env : Env) (st : Stores) (msg : PyVal)
    (pub : Nat) (hser : serializable msg = false) :
    ∀ s3f : Bool, uploadR env st msg pub s3f = (.error .serError, st) := by
  intro s3f
  simp [uploadR, hser]

theorem C10_serialize_failure_aborts_witness :
    serializable PyVal.other = false ∧
    ∀ s3f : Bool, uploadR ⟨true, true, true, true, true, 0, []⟩ ⟨[], []⟩
      PyVal.other 5 s3f = (.error .serError, (⟨[], []⟩ : Stores)) :=
  ⟨rfl, C10_serialize_failure_aborts ⟨true, true, true, true, true, 0, []⟩
    ⟨[], []⟩ PyVal.other 5 rfl⟩
